import Mathlib

/-!
Shallow embedding of the Excellm OOXML extraction core
(src/excelmd/parser/{utils,regions,ooxml,drawing}.py) and proofs of the
frozen specification claims.  Python strings are modelled as `List Char`
(`Str`), Python integers as `Int`, Python `None`/exceptions as `Option`,
and Python dicts/sets as association/insertion-ordered lists.
-/

abbrev Str := List Char

/-- Coerce a Lean string literal into the `List Char` model of Python strings. -/
def str (s : String) : Str := s.data

/-- ASCII uppercase letter test (the character class `[A-Z]`). -/
def isUpperAZ (c : Char) : Bool := 65 ≤ c.toNat && c.toNat ≤ 90

/-- ASCII digit test (the character class `\d`, restricted to ASCII). -/
def isDigit09 (c : Char) : Bool := 48 ≤ c.toNat && c.toNat ≤ 57

/-- Models Python `str.upper` on the ASCII range (the parser only feeds it
ASCII column letters). -/
def pyUpper (c : Char) : Char :=
  if 97 ≤ c.toNat && c.toNat ≤ 122 then Char.ofNat (c.toNat - 32) else c

/-- Models Python `str.lower` on the ASCII range. -/
def pyLower (c : Char) : Char :=
  if 65 ≤ c.toNat && c.toNat ≤ 90 then Char.ofNat (c.toNat + 32) else c

/-- `int` applied to a run of ASCII digits (the regex groups `(\d+)`). -/
def parseDigits (s : Str) : Nat :=
  s.foldl (fun acc c => 10 * acc + (c.toNat - 48)) 0

/-- Fuelled big-endian decimal digits of a positive natural number; the fuel
is always instantiated with the number itself, which suffices. -/
def natDigitsAux : Nat → Nat → Str
  | _, 0 => []
  | 0, _ + 1 => []
  | f + 1, n + 1 => natDigitsAux f ((n + 1) / 10) ++ [Char.ofNat (48 + (n + 1) % 10)]

/-- Decimal digits of a positive natural number, most significant first
(empty for `0`; used where the source guarantees positivity). -/
def natDigits (n : Nat) : Str := natDigitsAux n n

/-- Models Python `str(i)` for an integer. -/
def intStr (i : Int) : Str :=
  if i = 0 then str "0"
  else if i < 0 then '-' :: natDigits i.natAbs
  else natDigits i.natAbs

/-- `col_to_index` from utils.py: bijective base-26 fold over the letters,
`value * 26 + (ord(char.upper()) - 64)`. -/
def col_to_index (col : Str) : Int :=
  col.foldl (fun value ch => value * 26 + ((pyUpper ch).toNat : Int) - 64) 0

/-- Fuelled digit loop of `index_to_col` from utils.py: repeated
`divmod(value - 1, 26)` producing letters least-significant first, shown here
already reversed (most significant first). -/
def index_to_col_aux : Nat → Nat → Str
  | _, 0 => []
  | 0, _ + 1 => []
  | f + 1, n + 1 => index_to_col_aux f (n / 26) ++ [Char.ofNat (65 + n % 26)]

/-- The letter string produced by `index_to_col` for a positive index. -/
def index_to_col_digits (n : Nat) : Str := index_to_col_aux n n

/-- `index_to_col` from utils.py; `none` models the `ValueError` raised for an
index below 1. -/
def index_to_col (index : Int) : Option Str :=
  if index < 1 then none else some (index_to_col_digits index.toNat)

theorem natDigitsAux_zero (f : Nat) : natDigitsAux f 0 = [] := by
  cases f <;> rfl

theorem index_to_col_aux_zero (f : Nat) : index_to_col_aux f 0 = [] := by
  cases f <;> rfl

theorem natDigitsAux_eq : ∀ f₁ f₂ n : Nat, n ≤ f₁ → n ≤ f₂ →
    natDigitsAux f₁ n = natDigitsAux f₂ n := by
  intro f₁
  induction f₁ using Nat.strong_induction_on with
  | _ f₁ ih =>
    intro f₂ n h₁ h₂
    match n with
    | 0 => rw [natDigitsAux_zero, natDigitsAux_zero]
    | n + 1 =>
      match f₁, f₂ with
      | 0, _ => omega
      | _ + 1, 0 => omega
      | g₁ + 1, g₂ + 1 =>
        simp only [natDigitsAux]
        have hd : (n + 1) / 10 ≤ g₁ := Nat.le_trans (Nat.le_of_lt_succ
          (Nat.div_lt_self (Nat.succ_pos n) (by norm_num))) (Nat.le_of_succ_le_succ h₁)
        have hd₂ : (n + 1) / 10 ≤ g₂ := Nat.le_trans (Nat.le_of_lt_succ
          (Nat.div_lt_self (Nat.succ_pos n) (by norm_num))) (Nat.le_of_succ_le_succ h₂)
        rw [ih g₁ (Nat.lt_succ_self g₁) g₂ ((n + 1) / 10) hd hd₂]

theorem index_to_col_aux_eq : ∀ f₁ f₂ n : Nat, n ≤ f₁ → n ≤ f₂ →
    index_to_col_aux f₁ n = index_to_col_aux f₂ n := by
  intro f₁
  induction f₁ using Nat.strong_induction_on with
  | _ f₁ ih =>
    intro f₂ n h₁ h₂
    match n with
    | 0 => rw [index_to_col_aux_zero, index_to_col_aux_zero]
    | n + 1 =>
      match f₁, f₂ with
      | 0, _ => omega
      | _ + 1, 0 => omega
      | g₁ + 1, g₂ + 1 =>
        simp only [index_to_col_aux]
        have hd : n / 26 ≤ g₁ := by
          have := Nat.div_le_self n 26; omega
        have hd₂ : n / 26 ≤ g₂ := by
          have := Nat.div_le_self n 26; omega
        rw [ih g₁ (Nat.lt_succ_self g₁) g₂ (n / 26) hd hd₂]

theorem parseDigits_append (s t : Str) :
    parseDigits (s ++ t) =
      t.foldl (fun acc c => 10 * acc + (c.toNat - 48)) (parseDigits s) := by
  simp [parseDigits, List.foldl_append]

theorem col_to_index_append (s t : Str) :
    col_to_index (s ++ t) =
      t.foldl (fun value ch => value * 26 + ((pyUpper ch).toNat : Int) - 64)
        (col_to_index s) := by
  simp [col_to_index, List.foldl_append]

theorem charAZ_toNat (r : Nat) (hr : r < 26) :
    (Char.ofNat (65 + r)).toNat = 65 + r ∧ pyUpper (Char.ofNat (65 + r)) = Char.ofNat (65 + r) ∧
      isUpperAZ (Char.ofNat (65 + r)) = true := by
  interval_cases r <;> exact ⟨rfl, rfl, rfl⟩

theorem charDigit_toNat (r : Nat) (hr : r < 10) :
    (Char.ofNat (48 + r)).toNat = 48 + r ∧ isDigit09 (Char.ofNat (48 + r)) = true := by
  interval_cases r <;> exact ⟨rfl, rfl⟩

theorem upper_not_digit {c : Char} (h : isUpperAZ c = true) : isDigit09 c = false := by
  rw [Bool.eq_false_iff]
  intro hd
  simp only [isUpperAZ, Bool.and_eq_true, decide_eq_true_eq] at h
  simp only [isDigit09, Bool.and_eq_true, decide_eq_true_eq] at hd
  omega

theorem digit_not_upper {c : Char} (h : isDigit09 c = true) : isUpperAZ c = false := by
  rw [Bool.eq_false_iff]
  intro hu
  simp only [isDigit09, Bool.and_eq_true, decide_eq_true_eq] at h
  simp only [isUpperAZ, Bool.and_eq_true, decide_eq_true_eq] at hu
  omega

theorem upper_ne_dollar {c : Char} (h : isUpperAZ c = true) : c ≠ '$' := by
  intro hc
  subst hc
  simp [isUpperAZ] at h

theorem digit_ne_dollar {c : Char} (h : isDigit09 c = true) : c ≠ '$' := by
  intro hc
  subst hc
  simp [isDigit09] at h

theorem takeWhile_append_of_all {p : Char → Bool} {l₁ : Str} (l₂ : Str)
    (h : ∀ c ∈ l₁, p c = true) :
    (l₁ ++ l₂).takeWhile p = l₁ ++ l₂.takeWhile p := by
  induction l₁ with
  | nil => simp
  | cons a l ih =>
    have ha : p a = true := h a (List.mem_cons_self a l)
    simp only [List.cons_append, List.takeWhile_cons, ha, ite_true]
    rw [ih fun c hc => h c (List.mem_cons_of_mem a hc)]

theorem dropWhile_append_of_all {p : Char → Bool} {l₁ : Str} (l₂ : Str)
    (h : ∀ c ∈ l₁, p c = true) :
    (l₁ ++ l₂).dropWhile p = l₂.dropWhile p := by
  induction l₁ with
  | nil => simp
  | cons a l ih =>
    have ha : p a = true := h a (List.mem_cons_self a l)
    simp only [List.cons_append, List.dropWhile_cons, ha, ite_true]
    exact ih fun c hc => h c (List.mem_cons_of_mem a hc)

theorem takeWhile_all {p : Char → Bool} {l : Str} (h : ∀ c ∈ l, p c = true) :
    l.takeWhile p = l := by
  have := @takeWhile_append_of_all p l [] h
  simpa using this

theorem dropWhile_all {p : Char → Bool} {l : Str} (h : ∀ c ∈ l, p c = true) :
    l.dropWhile p = [] := by
  have := @dropWhile_append_of_all p l [] h
  simpa using this

theorem takeWhile_nil_of_head {p : Char → Bool} {a : Char} {l : Str} (h : p a = false) :
    (a :: l).takeWhile p = [] := by
  simp [List.takeWhile_cons, h]

theorem dropWhile_id_of_head {p : Char → Bool} {a : Char} {l : Str} (h : p a = false) :
    (a :: l).dropWhile p = a :: l := by
  simp [List.dropWhile_cons, h]

theorem index_to_col_aux_upper : ∀ f n : Nat, n ≤ f →
    ∀ c ∈ index_to_col_aux f n, isUpperAZ c = true := by
  intro f
  induction f using Nat.strong_induction_on with
  | _ f ih =>
    intro n hn c hc
    match f, n with
    | _, 0 => rw [index_to_col_aux_zero] at hc; cases hc
    | 0, _ + 1 => omega
    | g + 1, n + 1 =>
      simp only [index_to_col_aux, List.mem_append, List.mem_singleton] at hc
      rcases hc with hc | hc
      · exact ih g (Nat.lt_succ_self g) (n / 26)
          (by have := Nat.div_le_self n 26; omega) c hc
      · subst hc
        exact (charAZ_toNat (n % 26) (Nat.mod_lt n (by norm_num))).2.2

theorem natDigitsAux_digits : ∀ f n : Nat, n ≤ f →
    ∀ c ∈ natDigitsAux f n, isDigit09 c = true := by
  intro f
  induction f using Nat.strong_induction_on with
  | _ f ih =>
    intro n hn c hc
    match f, n with
    | _, 0 => rw [natDigitsAux_zero] at hc; cases hc
    | 0, _ + 1 => omega
    | g + 1, n + 1 =>
      simp only [natDigitsAux, List.mem_append, List.mem_singleton] at hc
      rcases hc with hc | hc
      · exact ih g (Nat.lt_succ_self g) ((n + 1) / 10)
          (by have := Nat.div_lt_self (Nat.succ_pos n) (show 1 < 10 by norm_num); omega) c hc
      · subst hc
        exact (charDigit_toNat ((n + 1) % 10) (Nat.mod_lt _ (by norm_num))).2

theorem index_to_col_digits_ne_nil {n : Nat} (hn : 1 ≤ n) :
    index_to_col_digits n ≠ [] := by
  match n, hn with
  | n + 1, _ =>
    simp only [index_to_col_digits, index_to_col_aux]
    intro h
    exact absurd (List.append_eq_nil.mp h).2 (by simp)

theorem natDigits_ne_nil {n : Nat} (hn : 1 ≤ n) : natDigits n ≠ [] := by
  match n, hn with
  | n + 1, _ =>
    simp only [natDigits, natDigitsAux]
    intro h
    exact absurd (List.append_eq_nil.mp h).2 (by simp)

theorem col_to_index_roundtrip : ∀ n : Nat, col_to_index (index_to_col_digits n) = n := by
  intro n
  induction n using Nat.strong_induction_on with
  | _ n ih =>
    match n with
    | 0 => rfl
    | m + 1 =>
      have hq : m / 26 < m + 1 := Nat.lt_succ_of_le (Nat.div_le_self m 26)
      have hstep : index_to_col_digits (m + 1) =
          index_to_col_digits (m / 26) ++ [Char.ofNat (65 + m % 26)] := by
        simp only [index_to_col_digits, index_to_col_aux]
        rw [index_to_col_aux_eq m (m / 26) (m / 26) (Nat.div_le_self m 26) le_rfl]
      rw [hstep, col_to_index_append, ih (m / 26) hq]
      have hc := charAZ_toNat (m % 26) (Nat.mod_lt m (by norm_num))
      simp only [List.foldl_cons, List.foldl_nil, hc.2.1, hc.1]
      have := Nat.div_add_mod m 26
      push_cast
      omega

theorem parseDigits_roundtrip : ∀ n : Nat, parseDigits (natDigits n) = n := by
  intro n
  induction n using Nat.strong_induction_on with
  | _ n ih =>
    match n with
    | 0 => rfl
    | m + 1 =>
      have hq : (m + 1) / 10 < m + 1 := Nat.div_lt_self (Nat.succ_pos m) (by norm_num)
      have hstep : natDigits (m + 1) =
          natDigits ((m + 1) / 10) ++ [Char.ofNat (48 + (m + 1) % 10)] := by
        simp only [natDigits, natDigitsAux]
        rw [natDigitsAux_eq m ((m + 1) / 10) ((m + 1) / 10) (by omega) le_rfl]
      rw [hstep, parseDigits_append, ih ((m + 1) / 10) hq]
      have hc := charDigit_toNat ((m + 1) % 10) (Nat.mod_lt _ (by norm_num))
      simp only [List.foldl_cons, List.foldl_nil, hc.1]
      have := Nat.div_add_mod (m + 1) 10
      omega

/-- Consume the optional leading `\$?` of the coordinate regexes.  The regex
is deterministic here: `$` can begin no other token, so greedy consumption
never needs backtracking. -/
def dropDollar (s : Str) : Str :=
  match s with
  | [] => []
  | c :: rest => if c = '$' then rest else c :: rest

/-- Deterministic equivalent of `CELL_RE = ^\$?([A-Z]+)\$?(\d+)$` from
utils.py, returning the two capture groups.  The character classes `[A-Z]`,
`\d`, `\$` are pairwise disjoint, so greedy maximal-munch matching is exactly
the regex semantics. -/
def matchCellRe (s : Str) : Option (Str × Str) :=
  let s₁ := dropDollar s
  let letters := s₁.takeWhile isUpperAZ
  let rest₁ := s₁.dropWhile isUpperAZ
  if letters = [] then none
  else
    let rest₂ := dropDollar rest₁
    let digits := rest₂.takeWhile isDigit09
    let rest₃ := rest₂.dropWhile isDigit09
    if digits = [] then none
    else if rest₃ = [] then some (letters, digits) else none

/-- Deterministic equivalent of
`RANGE_RE = ^\$?([A-Z]+)\$?(\d+):\$?([A-Z]+)\$?(\d+)$` from utils.py. -/
def matchRangeRe (s : Str) : Option (Str × Str × Str × Str) :=
  let s₁ := dropDollar s
  let l₁ := s₁.takeWhile isUpperAZ
  let r₁ := s₁.dropWhile isUpperAZ
  if l₁ = [] then none
  else
    let r₂ := dropDollar r₁
    let d₁ := r₂.takeWhile isDigit09
    let r₃ := r₂.dropWhile isDigit09
    if d₁ = [] then none
    else
      match r₃ with
      | ':' :: r₄ =>
        let r₅ := dropDollar r₄
        let l₂ := r₅.takeWhile isUpperAZ
        let r₆ := r₅.dropWhile isUpperAZ
        if l₂ = [] then none
        else
          let r₇ := dropDollar r₆
          let d₂ := r₇.takeWhile isDigit09
          let r₈ := r₇.dropWhile isDigit09
          if d₂ = [] then none
          else if r₈ = [] then some (l₁, d₁, l₂, d₂) else none
      | _ => none

/-- `coord_to_rowcol` from utils.py; `none` models the `ValueError` on a
coordinate that `CELL_RE` rejects.  Returns `(row, col)`. -/
def coord_to_rowcol (coord : Str) : Option (Int × Int) :=
  match matchCellRe coord with
  | none => none
  | some (letters, digits) => some ((parseDigits digits : Int), col_to_index letters)

/-- `rowcol_to_coord` from utils.py; `none` models the `ValueError` raised
when `row < 1 or col < 1`. -/
def rowcol_to_coord (row col : Int) : Option Str :=
  if row < 1 ∨ col < 1 then none
  else (index_to_col col).map (fun letters => letters ++ intStr row)

/-- `RangeRef` from model.py (numeric fields are Python ints). -/
structure RangeRef where
  ref : Str
  start_row : Int
  start_col : Int
  end_row : Int
  end_col : Int
deriving DecidableEq, Repr

/-- `ref.replace("$", "")` from `parse_range_ref`. -/
def removeDollars (s : Str) : Str := s.filter (fun c => c ≠ '$')

/-- `parse_range_ref` from utils.py; `none` models the `ValueError` on input
neither `RANGE_RE` nor `CELL_RE` accepts. -/
def parse_range_ref (ref : Str) : Option RangeRef :=
  let normalized := removeDollars ref
  match matchRangeRe normalized with
  | some (l₁, d₁, l₂, d₂) =>
    let sc := col_to_index l₁
    let sr : Int := parseDigits d₁
    let ec := col_to_index l₂
    let er : Int := parseDigits d₂
    some ⟨normalized, min sr er, min sc ec, max sr er, max sc ec⟩
  | none =>
    match matchCellRe normalized with
    | some (l, d) =>
      some ⟨normalized, (parseDigits d : Int), col_to_index l,
        (parseDigits d : Int), col_to_index l⟩
    | none => none

theorem dropDollar_cons {a : Char} (l : Str) (h : a ≠ '$') :
    dropDollar (a :: l) = a :: l := by
  simp [dropDollar, h]

theorem matchCellRe_letters_digits (L D : Str) (hL : L ≠ []) (hD : D ≠ [])
    (hLa : ∀ c ∈ L, isUpperAZ c = true) (hDa : ∀ c ∈ D, isDigit09 c = true) :
    matchCellRe (L ++ D) = some (L, D) := by
  obtain ⟨a, L', rfl⟩ := List.exists_cons_of_ne_nil hL
  obtain ⟨b, D', rfl⟩ := List.exists_cons_of_ne_nil hD
  have ha : isUpperAZ a = true := hLa a (List.mem_cons_self a L')
  have hb : isDigit09 b = true := hDa b (List.mem_cons_self b D')
  have h₁ : dropDollar ((a :: L') ++ (b :: D')) = (a :: L') ++ (b :: D') := by
    rw [List.cons_append]
    exact dropDollar_cons _ (upper_ne_dollar ha)
  have htw : ((a :: L') ++ (b :: D')).takeWhile isUpperAZ = a :: L' := by
    rw [takeWhile_append_of_all _ hLa, takeWhile_nil_of_head (digit_not_upper hb),
      List.append_nil]
  have hdw : ((a :: L') ++ (b :: D')).dropWhile isUpperAZ = b :: D' := by
    rw [dropWhile_append_of_all _ hLa, dropWhile_id_of_head (digit_not_upper hb)]
  have h₂ : dropDollar (b :: D') = b :: D' := dropDollar_cons _ (digit_ne_dollar hb)
  have htw₂ : (b :: D').takeWhile isDigit09 = b :: D' := takeWhile_all hDa
  have hdw₂ : (b :: D').dropWhile isDigit09 = [] := dropWhile_all hDa
  simp only [matchCellRe, h₁, htw, hdw, h₂, htw₂, hdw₂]
  simp

theorem c8_col_part (i : Int) (h1 : 1 ≤ i) :
    (index_to_col i).map col_to_index = some i := by
  have hnot : ¬ i < 1 := not_lt.mpr h1
  simp only [index_to_col, hnot, ite_false]
  have : Option.map col_to_index (some (index_to_col_digits i.toNat)) =
      some (col_to_index (index_to_col_digits i.toNat)) := rfl
  rw [this, col_to_index_roundtrip]
  congr 1
  omega

theorem c8_coord_part (r c : Int) (hr : 1 ≤ r) (hc : 1 ≤ c) :
    (rowcol_to_coord r c).bind coord_to_rowcol = some (r, c) := by
  have hor : ¬ (r < 1 ∨ c < 1) := by omega
  have hc0 : ¬ c < 1 := by omega
  have hcn : 1 ≤ c.toNat := by omega
  have hrn : 1 ≤ r.natAbs := by omega
  have hD : intStr r = natDigits r.natAbs := by
    have h₁ : ¬ r = 0 := by omega
    have h₂ : ¬ r < 0 := by omega
    simp [intStr, h₁, h₂]
  have hm := matchCellRe_letters_digits (index_to_col_digits c.toNat) (natDigits r.natAbs)
    (index_to_col_digits_ne_nil hcn) (natDigits_ne_nil hrn)
    (index_to_col_aux_upper c.toNat c.toNat le_rfl)
    (natDigitsAux_digits r.natAbs r.natAbs le_rfl)
  simp only [rowcol_to_coord, if_neg hor, index_to_col, if_neg hc0, hD,
    Option.map_some', Option.some_bind, coord_to_rowcol, hm]
  rw [parseDigits_roundtrip, col_to_index_roundtrip]
  simp only [Option.some.injEq, Prod.mk.injEq]
  constructor <;> omega

/-- C8: for every column index `i` in `[1, 16384]`,
`col_to_index (index_to_col i) = i`, and for every `row ≥ 1`, `col ≥ 1`,
`coord_to_rowcol (rowcol_to_coord row col) = (row, col)`. -/
theorem c8_coordinate_roundtrips :
    (∀ i : Int, 1 ≤ i → i ≤ 16384 → (index_to_col i).map col_to_index = some i) ∧
    (∀ r c : Int, 1 ≤ r → 1 ≤ c →
      (rowcol_to_coord r c).bind coord_to_rowcol = some (r, c)) :=
  ⟨fun i h1 _ => c8_col_part i h1, c8_coord_part⟩

/-- Witness for C8 at column 703 (`"AAA"`) and coordinate `(2, 28)`. -/
theorem c8_coordinate_roundtrips_witness :
    ((1 : Int) ≤ 703 ∧ (703 : Int) ≤ 16384 ∧
      (index_to_col 703).map col_to_index = some 703) ∧
    ((1 : Int) ≤ 2 ∧ (1 : Int) ≤ 28 ∧
      (rowcol_to_coord 2 28).bind coord_to_rowcol = some (2, 28)) :=
  ⟨⟨by norm_num, by norm_num,
      c8_coordinate_roundtrips.1 703 (by norm_num) (by norm_num)⟩,
    ⟨by norm_num, by norm_num, c8_coordinate_roundtrips.2 2 28 (by norm_num) (by norm_num)⟩⟩

/-- The four numeric bounds of a `RangeRef`. -/
def rangeBounds (rr : RangeRef) : Int × Int × Int × Int :=
  (rr.start_row, rr.start_col, rr.end_row, rr.end_col)

theorem parse_range_ref_normalized (ref : Str) (rr : RangeRef)
    (h : parse_range_ref ref = some rr) :
    rr.start_row ≤ rr.end_row ∧ rr.start_col ≤ rr.end_col := by
  simp only [parse_range_ref] at h
  cases hm : matchRangeRe (removeDollars ref) with
  | some quad =>
    obtain ⟨l₁, d₁, l₂, d₂⟩ := quad
    rw [hm] at h
    simp only [Option.some.injEq] at h
    subst h
    exact ⟨le_trans (min_le_left _ _) (le_max_left _ _),
      le_trans (min_le_left _ _) (le_max_left _ _)⟩
  | none =>
    rw [hm] at h
    cases hc : matchCellRe (removeDollars ref) with
    | some pair =>
      obtain ⟨l, d⟩ := pair
      rw [hc] at h
      simp only [Option.some.injEq] at h
      subst h
      exact ⟨le_rfl, le_rfl⟩
    | none =>
      rw [hc] at h
      cases h

/-- C7: `parse_range_ref "$B$2:$D$4"` yields bounds `(2, 2, 4, 4)`; every
successfully parsed range reference satisfies `start_row ≤ end_row` and
`start_col ≤ end_col`; and `"D4:B2"` yields the same bounds as `"B2:D4"`. -/
theorem c7_range_ref_normalization :
    parse_range_ref (str "$B$2:$D$4") = some ⟨str "B2:D4", 2, 2, 4, 4⟩ ∧
    (∀ ref rr, parse_range_ref ref = some rr →
      rr.start_row ≤ rr.end_row ∧ rr.start_col ≤ rr.end_col) ∧
    (parse_range_ref (str "D4:B2")).map rangeBounds =
      (parse_range_ref (str "B2:D4")).map rangeBounds :=
  ⟨by decide, parse_range_ref_normalized, by decide⟩

/-- Witness for C7's universally quantified part, at the reversed reference
`"C9:A3"`. -/
theorem c7_range_ref_normalization_witness :
    parse_range_ref (str "C9:A3") = some ⟨str "C9:A3", 3, 1, 9, 3⟩ ∧
    (3 : Int) ≤ 9 ∧ (1 : Int) ≤ 3 :=
  ⟨by decide, by
    have h := c7_range_ref_normalization.2.1 (str "C9:A3")
      ⟨str "C9:A3", 3, 1, 9, 3⟩ (by decide)
    simp only at h
    exact h⟩

/-- Python whitespace test for `str.strip` (ASCII subset; the parser only
strips ASCII numeric strings). -/
def isSpace (c : Char) : Bool :=
  c = ' ' || c = '\t' || c = '\n' || c = '\r' || c.toNat = 11 || c.toNat = 12

/-- Models Python `str.strip()`. -/
def pyStrip (s : Str) : Str :=
  ((s.dropWhile isSpace).reverse.dropWhile isSpace).reverse

/-- `xs` begins with `needle`. -/
def startsWithStr : Str → Str → Bool
  | [], _ => true
  | _ :: _, [] => false
  | a :: ns, b :: xs => a = b && startsWithStr ns xs

/-- Python `needle in hay` (substring containment). -/
def isSubstr (needle : Str) : Str → Bool
  | [] => startsWithStr needle []
  | c :: rest => startsWithStr needle (c :: rest) || isSubstr needle rest

/-- `_strip_quoted` from ooxml.py: drop `"`-delimited literals (and the
quote characters themselves) from a number format. -/
def strip_quoted_aux : Bool → Str → Str
  | _, [] => []
  | inq, c :: rest =>
    if c = '"' then strip_quoted_aux (!inq) rest
    else if inq then strip_quoted_aux inq rest
    else c :: strip_quoted_aux inq rest

/-- `_strip_quoted` from ooxml.py. -/
def strip_quoted (s : Str) : Str := strip_quoted_aux false s

/-- Does the alternation `y+|m+|d+|h+|s+|AM/PM` (case-insensitive) match at
the head of `s`?  A single date letter suffices for `y+` etc. -/
def dateTokenHere (s : Str) : Bool :=
  match s with
  | [] => false
  | c :: _ =>
    (pyLower c = 'y' || pyLower c = 'm' || pyLower c = 'd' ||
      pyLower c = 'h' || pyLower c = 's') ||
    (match s with
     | a :: b :: c₂ :: d :: e :: _ =>
       pyLower a = 'a' && pyLower b = 'm' && c₂ = '/' && pyLower d = 'p' && pyLower e = 'm'
     | _ => false)

/-- Search for `_date_token_re = (?:^|[^\\])(?:y+|m+|d+|h+|s+|AM/PM)`
(IGNORECASE): a date token must occur either at the start or after a
character other than a backslash. -/
def date_token_search : Option Char → Str → Bool
  | _, [] => false
  | prev, c :: rest =>
    ((match prev with
      | none => true
      | some p => p ≠ '\\') && dateTokenHere (c :: rest)) ||
    date_token_search (some c) rest

/-- `_is_date_format` from ooxml.py. -/
def is_date_format (fmt : Str) : Bool :=
  date_token_search none (strip_quoted fmt)

/-- Gregorian civil date `(year, month, day)` for a day offset from
1970-01-01; together with the `serial - 25569` shift below this models
Python `datetime(1899, 12, 30) + timedelta(days=serial)` (1899-12-30 lies
25569 days before 1970-01-01). -/
def civilFromDays (z₀ : Int) : Int × Int × Int :=
  let z := z₀ + 719468
  let era : Int := (if 0 ≤ z then z else z - 146096) / 146097
  let doe := z - era * 146097
  let yoe := (doe - doe / 1460 + doe / 36524 - doe / 146096) / 365
  let y := yoe + era * 400
  let doy := doe - (365 * yoe + yoe / 4 - yoe / 100)
  let mp := (5 * doy + 2) / 153
  let d := doy - (153 * mp + 2) / 5 + 1
  let m := mp + (if mp < 10 then 3 else -9)
  (y + (if m ≤ 2 then 1 else 0), m, d)

/-- Left-pad with zeros to width `w` (the behaviour of `%Y`, `%m`, `%d`,
`%H`, `%M`, `%S` in CPython `strftime`). -/
def zeroPad (w : Nat) (s : Str) : Str := List.replicate (w - s.length) '0' ++ s

/-- `dt.strftime("%Y-%m-%d")` for the computed civil date. -/
def strftimeDate (y m d : Int) : Str :=
  zeroPad 4 (intStr y) ++ ['-'] ++ zeroPad 2 (intStr m) ++ ['-'] ++ zeroPad 2 (intStr d)

/-- `_format_excel_date` from ooxml.py, restricted to integer serials (so
the time-of-day component is always midnight): epoch 1899-12-30 plus
`serial` days, rendered as date, time or datetime depending on which token
classes occur in the lowered format. -/
def format_excel_date (serial : Int) (fmt : Str) : Str :=
  let ymd := civilFromDays (serial - 25569)
  let cleaned := fmt.map pyLower
  let has_date := isSubstr (str "y") cleaned || isSubstr (str "d") cleaned ||
    isSubstr (str "m") cleaned
  let has_time := (isSubstr (str "h") cleaned || isSubstr (str "s") cleaned) ||
    isSubstr (str "am/pm") cleaned
  if has_date && has_time then
    strftimeDate ymd.1 ymd.2.1 ymd.2.2 ++ str " 00:00:00"
  else if has_time then str "00:00:00"
  else strftimeDate ymd.1 ymd.2.1 ymd.2.2

/-- `_normalize_general_number` from ooxml.py on the integer domain: an
integer is always within `1e-11` of its own rounding, so the integral
branch `str(int(round(number)))` is always taken. -/
def normalize_general_number (number : Int) (_raw : Str) : Str :=
  intStr number

/-- Insert a comma after every three characters (used on reversed digits). -/
def insertCommasEvery3 : Str → Str
  | a :: b :: c :: d :: rest => a :: b :: c :: ',' :: insertCommasEvery3 (d :: rest)
  | l => l

/-- Thousands grouping of a digit run, as in `f"{n:,}"`. -/
def group3 (ds : Str) : Str := (insertCommasEvery3 ds.reverse).reverse

/-- The declared decimal-place count of a number format: the number of `0`
or `#` placeholders after the first `.` (`_format_percent`/`_format_decimal`
share this computation). -/
def fmtDecimals (fmt : Str) : Nat :=
  if '.' ∈ fmt then
    ((fmt.dropWhile (fun c => c ≠ '.')).drop 1).countP (fun c => c = '0' || c = '#')
  else 0

/-- `f"{v:.{d}f}"` for an integer `v`: the digits followed by `d` zeros. -/
def fixedZeros (v : Int) (d : Nat) : Str :=
  intStr v ++ (if d = 0 then [] else '.' :: List.replicate d '0')

/-- `_format_percent` from ooxml.py on the integer domain. -/
def format_percent (number : Int) (fmt : Str) : Str :=
  fixedZeros (number * 100) (fmtDecimals fmt) ++ ['%']

/-- `_format_decimal` from ooxml.py on the integer domain. -/
def format_decimal (number : Int) (fmt : Str) : Str :=
  let use_grouping := ',' ∈ fmt.takeWhile (fun c => c ≠ '.')
  let decimals := fmtDecimals fmt
  let intPart :=
    if use_grouping then
      (if number < 0 then '-' :: group3 (natDigits number.natAbs)
       else if number = 0 then str "0"
       else group3 (natDigits number.natAbs))
    else intStr number
  intPart ++ (if decimals = 0 then [] else '.' :: List.replicate decimals '0')

/-- Models Python `float(raw)` restricted to optionally signed decimal
integer literals (the exact domain the verified claims exercise); `none`
abstracts every other input, on which the source would attempt full float
syntax outside this model's numeric domain. -/
def pyIntLit? (s : Str) : Option Int :=
  match s with
  | '+' :: rest =>
    if rest ≠ [] ∧ ∀ c ∈ rest, isDigit09 c then some (parseDigits rest : Int) else none
  | '-' :: rest =>
    if rest ≠ [] ∧ ∀ c ∈ rest, isDigit09 c then some (-(parseDigits rest : Int)) else none
  | _ => if s ≠ [] ∧ ∀ c ∈ s, isDigit09 c then some (parseDigits s : Int) else none

/-- Python `dict.get` over an association-list model of a dict. -/
def dictGet (m : List (Str × Str)) (k : Str) (dflt : Str) : Str :=
  match m.find? (fun kv => kv.1 = k) with
  | some kv => kv.2
  | none => dflt

/-- `_format_number` from ooxml.py (the style→number-format dict is passed
explicitly as an association list).  The numeric domain is the integer
literals of `pyIntLit?`; a cached value outside it yields `none`. -/
def format_number (numfmt_map : List (Str × Str)) (value : Option Str)
    (style_id : Option Str) : Option Str :=
  match value with
  | none => some []
  | some v =>
    let raw := pyStrip v
    if raw = [] then some []
    else
      match pyIntLit? raw with
      | none => none
      | some number =>
        let key := match style_id with
          | some s => if s = [] then str "0" else s
          | none => str "0"
        let fmt := dictGet numfmt_map key []
        if fmt = [] || fmt.map pyLower = str "general" then
          some (normalize_general_number number raw)
        else
          let primary := fmt.takeWhile (fun c => c ≠ ';')
          if is_date_format primary then some (format_excel_date number primary)
          else if '%' ∈ primary then some (format_percent number primary)
          else if '0' ∈ primary || '#' ∈ primary then some (format_decimal number primary)
          else some (normalize_general_number number raw)

/-- C4 counterexample: the decoded display value of cached `"44200"` under
format `"yyyy-mm-dd"` is not `"2021-01-05"`: 1899-12-30 plus 44200 days is
2021-01-04 (2021-01-01 is serial 44197). -/
theorem c4_date_serial_display_counterexample :
    ¬ format_number [(str "3", str "yyyy-mm-dd")] (some (str "44200")) (some (str "3")) =
      some (str "2021-01-05") := by
  decide

/-- C4 (amended): a numeric cell with cached value `"44200"` whose resolved
number format is the date pattern `"yyyy-mm-dd"` decodes to `"2021-01-04"`,
computed as the 1899-12-30 epoch plus 44200 days. -/
theorem c4_date_serial_display :
    format_number [(str "3", str "yyyy-mm-dd")] (some (str "44200")) (some (str "3")) =
      some (str "2021-01-04") ∧
    civilFromDays (44200 - 25569) = (2021, 1, 4) := by
  constructor
  · decide
  · decide

/-- The digit-run tail of Python's `int()` literal grammar after its first
digit: `(digit | "_" digit)*` — an underscore must sit between two digits. -/
def digitsUAux : Nat → Str → Option Nat
  | acc, [] => some acc
  | _, ['_'] => none
  | acc, '_' :: c :: rest =>
    if isDigit09 c then digitsUAux (10 * acc + (c.toNat - 48)) rest else none
  | acc, c :: rest =>
    if isDigit09 c then digitsUAux (10 * acc + (c.toNat - 48)) rest else none

/-- An unsigned Python `int()` literal: a digit followed by `digitsUAux`. -/
def pyIntDigits : Str → Option Nat
  | [] => none
  | c :: rest => if isDigit09 c then digitsUAux (c.toNat - 48) rest else none

/-- Models Python `int(str)` (ASCII subset): strip whitespace, optional
sign, digits with single underscores between digits; `none` models the
`ValueError` on anything else. -/
def pyInt? (s : Str) : Option Int :=
  let t := pyStrip s
  match t with
  | '+' :: rest => (pyIntDigits rest).map (fun n => (n : Int))
  | '-' :: rest => (pyIntDigits rest).map (fun n => -(n : Int))
  | _ => (pyIntDigits t).map (fun n => (n : Int))

/-- The `cell_type == "s"` branch of `_decode_cell_value` from ooxml.py:
missing cached value, unparseable index, or out-of-bounds index decode to
the empty string; otherwise the shared-string table entry at the index. -/
def decode_cell_value_s (cached_value : Option Str) (shared_strings : List Str) : Str :=
  match cached_value with
  | none => []
  | some v =>
    match pyInt? v with
    | none => []
    | some idx =>
      if 0 ≤ idx ∧ idx < (shared_strings.length : Int) then
        shared_strings.getD idx.toNat []
      else []

theorem getD_mem_of_lt {α : Type} (l : List α) (n : Nat) (d : α) (h : n < l.length) :
    l.getD n d ∈ l := by
  induction l generalizing n with
  | nil => simp at h
  | cons a t ih =>
    cases n with
    | zero => simp [List.getD]
    | succ m =>
      have : (a :: t).getD (m + 1) d = t.getD m d := by simp [List.getD]
      rw [this]
      exact List.mem_cons_of_mem a (ih m (by simpa using h))

/-- C10: decoding a shared-string cell is total and never escapes the
table: an absent cached value, an unparseable index, or an out-of-bounds
index decode to the empty string, and a parseable in-bounds index decodes
to the table entry at that index. -/
theorem c10_shared_string_decode_total :
    (∀ cached shared, decode_cell_value_s cached shared = [] ∨
      decode_cell_value_s cached shared ∈ shared) ∧
    (∀ shared, decode_cell_value_s none shared = []) ∧
    (∀ shared (v : Str), pyInt? v = none → decode_cell_value_s (some v) shared = []) ∧
    (∀ shared v idx, pyInt? v = some idx →
      (0 ≤ idx → idx < (shared.length : Int) →
        decode_cell_value_s (some v) shared = shared.getD idx.toNat []) ∧
      (¬ (0 ≤ idx ∧ idx < (shared.length : Int)) →
        decode_cell_value_s (some v) shared = [])) := by
  refine ⟨?_, fun shared => rfl, ?_, ?_⟩
  · intro cached shared
    cases cached with
    | none => exact Or.inl rfl
    | some v =>
      cases hp : pyInt? v with
      | none => exact Or.inl (by simp [decode_cell_value_s, hp])
      | some idx =>
        by_cases hb : 0 ≤ idx ∧ idx < (shared.length : Int)
        · refine Or.inr ?_
          have hd : decode_cell_value_s (some v) shared = shared.getD idx.toNat [] := by
            simp [decode_cell_value_s, hp, hb]
          rw [hd]
          exact getD_mem_of_lt shared idx.toNat [] (by omega)
        · exact Or.inl (by simp [decode_cell_value_s, hp, hb])
  · intro shared v hp
    simp [decode_cell_value_s, hp]
  · intro shared v idx hp
    constructor
    · intro h0 hlen
      simp [decode_cell_value_s, hp, h0, hlen]
    · intro hb
      simp [decode_cell_value_s, hp, hb]

/-- Witness for C10 at cached index `"1"` against a two-entry table. -/
theorem c10_shared_string_decode_total_witness :
    pyInt? (str "1") = some 1 ∧
    decode_cell_value_s (some (str "1")) [str "a", str "b"] =
      [str "a", str "b"].getD 1 [] :=
  ⟨by decide,
    (c10_shared_string_decode_total.2.2.2 [str "a", str "b"] (str "1") 1
      (by decide)).1 (by decide) (by decide)⟩

/-- `CellData` from model.py. -/
structure CellData where
  coord : Str
  row : Int
  col : Int
  cell_type : Str
  value : Str
  formula : Option Str
  cached_value : Option Str
  style_id : Option Str
deriving DecidableEq, Repr

/-- `DataValidation` from model.py. -/
structure DataValidation where
  type : Option Str
  sqref : Str
  allow_blank : Option Bool
  show_error_message : Option Bool
  operator : Option Str
  formula1 : Option Str
  formula2 : Option Str
deriving DecidableEq, Repr

/-- `UnsupportedElement` from model.py. -/
structure UnsupportedElement where
  scope : Str
  location : Str
  tag : Str
  raw_xml : Str
deriving DecidableEq, Repr

/-- `RegionCellRow` from model.py. -/
structure RegionCellRow where
  coord : Str
  value : Str
  formula : Option Str
  cached_value : Option Str
  cell_type : Str
  style_id : Option Str
  merge_ref : Option Str
  flags : List Str
deriving DecidableEq, Repr

/-- `CellRegion` from model.py. -/
structure CellRegion where
  region_id : Int
  bounds : RangeRef
  rows : List RegionCellRow
deriving DecidableEq, Repr

/-- `SheetDoc` from model.py, restricted to the fields read by the functions
verified here (`build_sheet_regions` and the strict-unsupported gate); the
remaining payload fields (row/column size maps, hidden sets, print metadata
dicts, drawings, connectors, mermaid, regions) are never read by them.
Dicts are modelled as association lists with unique keys. -/
structure SheetDoc where
  index : Int
  name : Str
  state : Str
  path : Str
  dimension_ref : Str
  cells : List CellData
  cell_map : List (Str × CellData)
  merges : List RangeRef
  merge_map : List (Str × Str)
  data_validations : List DataValidation
  print_areas : List RangeRef
  unsupported : List UnsupportedElement
deriving DecidableEq, Repr

/-- Lines 119-121 of `OOXMLWorkbookParser.parse` in ooxml.py: after all
sheets have been built (each carrying its unsupported-element log), the
total unsupported count is formed and, under `strict_unsupported`, a nonzero
count raises `RuntimeError(count)`; otherwise the parsed sheets are
returned unchanged. -/
def parse_strict_gate (strict_unsupported : Bool) (sheets : List SheetDoc) :
    Except Nat (List SheetDoc) :=
  let unsupported_count := (sheets.map (fun s => s.unsupported.length)).sum
  if unsupported_count ≠ 0 ∧ strict_unsupported then Except.error unsupported_count
  else Except.ok sheets

/-- C6: with at least one unsupported element, strict mode fails carrying
exactly the total unsupported tally, while non-strict mode succeeds with the
very same sheets (hence the same per-sheet unsupported logs). -/
theorem c6_strict_unsupported_gate (sheets : List SheetDoc)
    (h : 1 ≤ (sheets.map (fun s => s.unsupported.length)).sum) :
    parse_strict_gate true sheets =
      Except.error ((sheets.map (fun s => s.unsupported.length)).sum) ∧
    parse_strict_gate false sheets = Except.ok sheets ∧
    ∀ ws, parse_strict_gate false sheets = Except.ok ws →
      ws.map (fun s => s.unsupported) = sheets.map (fun s => s.unsupported) := by
  have hne : (sheets.map (fun s => s.unsupported.length)).sum ≠ 0 := by omega
  refine ⟨by simp [parse_strict_gate, hne], by simp [parse_strict_gate], ?_⟩
  intro ws hws
  have hok : parse_strict_gate false sheets = Except.ok sheets := by
    simp [parse_strict_gate]
  rw [hok] at hws
  cases hws
  rfl

/-- A one-sheet document carrying exactly one unsupported element, used to
instantiate C6. -/
def c6SampleSheet : SheetDoc :=
  { index := 0, name := str "Sheet1", state := str "visible", path := str "xl/worksheets/sheet1.xml",
    dimension_ref := str "A1:A1", cells := [], cell_map := [], merges := [], merge_map := [],
    data_validations := [], print_areas := [],
    unsupported := [{ scope := str "worksheet", location := str "xl/worksheets/sheet1.xml",
                      tag := str "bogusElement", raw_xml := str "<bogusElement/>" }] }

/-- Witness for C6 on a one-sheet document with one unsupported element. -/
theorem c6_strict_unsupported_gate_witness :
    1 ≤ ([c6SampleSheet].map (fun s => s.unsupported.length)).sum ∧
    parse_strict_gate true [c6SampleSheet] = Except.error 1 ∧
    parse_strict_gate false [c6SampleSheet] = Except.ok [c6SampleSheet] :=
  ⟨by decide,
    (c6_strict_unsupported_gate [c6SampleSheet] (by decide)).1,
    (c6_strict_unsupported_gate [c6SampleSheet] (by decide)).2.1⟩

/-- Python `range(a, b + 1)` over ints. -/
def intRange (a b : Int) : List Int :=
  (List.range (b + 1 - a).toNat).map (fun (k : Nat) => a + (k : Int))

/-- `iter_cells_in_range` from utils.py: row-major enumeration of the cells
of a range. -/
def iter_cells_in_range (rng : RangeRef) : List (Int × Int) :=
  (intRange rng.start_row rng.end_row).flatMap
    (fun r => (intRange rng.start_col rng.end_col).map (fun c => (r, c)))

/-- `OOXMLWorkbookParser._row_col_to_coord` from ooxml.py: base-26 letters of
the column (nothing when `col < 1`, as the Python loop body never runs) glued
to `str(row)`. -/
def row_col_to_coord (row col : Int) : Str :=
  index_to_col_digits col.toNat ++ intStr row

/-- Python dict assignment `m[k] = v`, modelled by prepending the binding;
every verified use of the dict is a lookup, for which the newest binding
winning is exactly assignment semantics. -/
def dictInsert (m : List (Str × Str)) (k v : Str) : List (Str × Str) :=
  (k, v) :: m

/-- Python `m.get(k)` on the association-list dict model. -/
def dictFind (m : List (Str × Str)) (k : Str) : Option Str :=
  (m.find? (fun kv => kv.1 = k)).map (fun kv => kv.2)

/-- `_parse_merges` from ooxml.py over the `ref` attributes of the sheet's
`mergeCell` elements: unparsable or missing refs are skipped; each parsed
range is appended to the merge list and every covered coordinate (the anchor
included) is assigned the range's normalized ref in the merge map. -/
def parse_merges_aux :
    List RangeRef × List (Str × Str) → List (Option Str) → List RangeRef × List (Str × Str)
  | acc, [] => acc
  | acc, oref :: rest =>
    parse_merges_aux
      (match oref with
       | none => acc
       | some ref =>
         if ref = [] then acc
         else
           match parse_range_ref ref with
           | none => acc
           | some rng =>
             (acc.1 ++ [rng],
              (iter_cells_in_range rng).foldl
                (fun m rc => dictInsert m (row_col_to_coord rc.1 rc.2) rng.ref) acc.2))
      rest

/-- `_parse_merges` from ooxml.py, returning the merge list and merge map. -/
def parse_merges (refs : List (Option Str)) : List RangeRef × List (Str × Str) :=
  parse_merges_aux ([], []) refs

/-- C5 counterexample: for the single merge `"A1:B2"`, the anchor coordinate
`"A1"` IS a key of the merge map (mapping to the merge's ref), contradicting
the claim that the anchor is excluded. -/
theorem c5_merge_map_counterexample :
    ¬ dictFind (parse_merges [some (str "A1:B2")]).2 (str "A1") = none ∧
    dictFind (parse_merges [some (str "A1:B2")]).2 (str "A1") = some (str "A1:B2") := by
  constructor
  · decide
  · decide

theorem pyUpper_of_upper {c : Char} (h : isUpperAZ c = true) : pyUpper c = c := by
  simp only [isUpperAZ, Bool.and_eq_true, decide_eq_true_eq] at h
  simp only [pyUpper]
  rw [if_neg]
  simp only [Bool.and_eq_true, decide_eq_true_eq, not_and]
  omega

theorem col_to_index_foldl_ge_one :
    ∀ (l : Str) (v : Int), 1 ≤ v → (∀ c ∈ l, isUpperAZ c = true) →
      1 ≤ l.foldl (fun value ch => value * 26 + ((pyUpper ch).toNat : Int) - 64) v := by
  intro l
  induction l with
  | nil =>
    intro v hv _
    simpa using hv
  | cons a t ih =>
    intro v hv hall
    have ha : isUpperAZ a = true := hall a (List.mem_cons_self a t)
    have ha' : 65 ≤ a.toNat ∧ a.toNat ≤ 90 := by
      simpa [isUpperAZ, Bool.and_eq_true, decide_eq_true_eq] using ha
    simp only [List.foldl_cons]
    apply ih
    · rw [pyUpper_of_upper ha]
      have h26 : (26 : Int) ≤ v * 26 := by nlinarith
      omega
    · exact fun c hc => hall c (List.mem_cons_of_mem a hc)

theorem col_to_index_pos {l : Str} (hl : l ≠ [])
    (hall : ∀ c ∈ l, isUpperAZ c = true) : 1 ≤ col_to_index l := by
  obtain ⟨a, t, rfl⟩ := List.exists_cons_of_ne_nil hl
  have ha : isUpperAZ a = true := hall a (List.mem_cons_self a t)
  have ha' : 65 ≤ a.toNat ∧ a.toNat ≤ 90 := by
    simpa [isUpperAZ, Bool.and_eq_true, decide_eq_true_eq] using ha
  simp only [col_to_index, List.foldl_cons]
  apply col_to_index_foldl_ge_one
  · rw [pyUpper_of_upper ha]
    omega
  · exact fun c hc => hall c (List.mem_cons_of_mem a hc)

theorem intStr_digits {r : Int} (hr : 0 ≤ r) : ∀ c ∈ intStr r, isDigit09 c = true := by
  intro c hc
  by_cases h0 : r = 0
  · subst h0
    have h00 : intStr 0 = ['0'] := by decide
    rw [h00, List.mem_singleton] at hc
    subst hc
    decide
  · have hneg : ¬ r < 0 := by omega
    simp only [intStr, if_neg h0, if_neg hneg] at hc
    exact natDigitsAux_digits r.natAbs r.natAbs le_rfl c hc

theorem intStr_ne_nil {r : Int} (hr : 0 ≤ r) : intStr r ≠ [] := by
  by_cases h0 : r = 0
  · subst h0
    decide
  · have hneg : ¬ r < 0 := by omega
    simp only [intStr, if_neg h0, if_neg hneg]
    exact natDigits_ne_nil (by omega)

theorem parseDigits_intStr {r : Int} (hr : 0 ≤ r) : parseDigits (intStr r) = r.toNat := by
  by_cases h0 : r = 0
  · subst h0
    decide
  · have hneg : ¬ r < 0 := by omega
    simp only [intStr, if_neg h0, if_neg hneg]
    rw [parseDigits_roundtrip]
    omega

theorem takeWhile_upper_of_digits {D : Str} (h : ∀ c ∈ D, isDigit09 c = true) :
    D.takeWhile isUpperAZ = [] := by
  cases D with
  | nil => rfl
  | cons a t =>
    exact takeWhile_nil_of_head (digit_not_upper (h a (List.mem_cons_self a t)))

theorem upper_digits_split {L₁ D₁ L₂ D₂ : Str}
    (hL₁ : ∀ c ∈ L₁, isUpperAZ c = true) (hD₁ : ∀ c ∈ D₁, isDigit09 c = true)
    (hL₂ : ∀ c ∈ L₂, isUpperAZ c = true) (hD₂ : ∀ c ∈ D₂, isDigit09 c = true)
    (h : L₁ ++ D₁ = L₂ ++ D₂) : L₁ = L₂ ∧ D₁ = D₂ := by
  have htw : L₁ = L₂ := by
    have h₁ : (L₁ ++ D₁).takeWhile isUpperAZ = L₁ := by
      rw [takeWhile_append_of_all _ hL₁, takeWhile_upper_of_digits hD₁, List.append_nil]
    have h₂ : (L₂ ++ D₂).takeWhile isUpperAZ = L₂ := by
      rw [takeWhile_append_of_all _ hL₂, takeWhile_upper_of_digits hD₂, List.append_nil]
    rw [← h₁, ← h₂, h]
  refine ⟨htw, ?_⟩
  subst htw
  exact List.append_cancel_left h

theorem row_col_to_coord_inj {r₁ c₁ r₂ c₂ : Int}
    (hr₁ : 0 ≤ r₁) (hc₁ : 1 ≤ c₁) (hr₂ : 0 ≤ r₂) (hc₂ : 1 ≤ c₂)
    (h : row_col_to_coord r₁ c₁ = row_col_to_coord r₂ c₂) : r₁ = r₂ ∧ c₁ = c₂ := by
  simp only [row_col_to_coord] at h
  obtain ⟨hL, hD⟩ := upper_digits_split
    (index_to_col_aux_upper c₁.toNat c₁.toNat le_rfl)
    (intStr_digits hr₁)
    (index_to_col_aux_upper c₂.toNat c₂.toNat le_rfl)
    (intStr_digits hr₂) h
  constructor
  · have hp := congrArg parseDigits hD
    rw [parseDigits_intStr hr₁, parseDigits_intStr hr₂] at hp
    omega
  · have hcix := congrArg col_to_index hL
    have hrt₁ := col_to_index_roundtrip c₁.toNat
    have hrt₂ := col_to_index_roundtrip c₂.toNat
    simp only [index_to_col_digits] at hrt₁ hrt₂
    rw [hrt₁, hrt₂] at hcix
    omega

theorem mem_intRange {a b x : Int} : x ∈ intRange a b ↔ a ≤ x ∧ x ≤ b := by
  unfold intRange
  rw [List.mem_map]
  constructor
  · rintro ⟨k, hk, rfl⟩
    rw [List.mem_range] at hk
    omega
  · rintro ⟨h₁, h₂⟩
    exact ⟨(x - a).toNat, List.mem_range.mpr (by omega), by omega⟩

theorem mem_iter_cells {rng : RangeRef} {r c : Int} :
    (r, c) ∈ iter_cells_in_range rng ↔
      rng.start_row ≤ r ∧ r ≤ rng.end_row ∧ rng.start_col ≤ c ∧ c ≤ rng.end_col := by
  simp only [iter_cells_in_range, List.mem_flatMap, List.mem_map, Prod.mk.injEq]
  constructor
  · rintro ⟨r', hr', c', hc', rfl, rfl⟩
    exact ⟨(mem_intRange.mp hr').1, (mem_intRange.mp hr').2,
      (mem_intRange.mp hc').1, (mem_intRange.mp hc').2⟩
  · rintro ⟨h₁, h₂, h₃, h₄⟩
    exact ⟨r, mem_intRange.mpr ⟨h₁, h₂⟩, c, mem_intRange.mpr ⟨h₃, h₄⟩, rfl, rfl⟩

theorem dictFind_dictInsert (m : List (Str × Str)) (key v k : Str) :
    dictFind (dictInsert m key v) k = if k = key then some v else dictFind m k := by
  by_cases h : k = key
  · subst h
    simp [dictInsert, dictFind, List.find?]
  · have h' : ¬ key = k := fun hh => h hh.symm
    simp [dictInsert, dictFind, List.find?, h, h']

theorem fold_insert_find (cells : List (Int × Int)) (m : List (Str × Str)) (v k : Str) :
    dictFind (cells.foldl (fun m rc => dictInsert m (row_col_to_coord rc.1 rc.2) v) m) k =
      if ∃ rc ∈ cells, k = row_col_to_coord rc.1 rc.2 then some v else dictFind m k := by
  induction cells generalizing m with
  | nil => simp
  | cons rc t ih =>
    simp only [List.foldl_cons]
    rw [ih]
    by_cases h₂ : k = row_col_to_coord rc.1 rc.2
    · have hc : ∃ rc₂ ∈ rc :: t, k = row_col_to_coord rc₂.1 rc₂.2 :=
        ⟨rc, List.mem_cons_self rc t, h₂⟩
      rw [if_pos hc]
      by_cases h₁ : ∃ rc₂ ∈ t, k = row_col_to_coord rc₂.1 rc₂.2
      · rw [if_pos h₁]
      · rw [if_neg h₁, dictFind_dictInsert, if_pos h₂]
    · have hstep : dictFind (dictInsert m (row_col_to_coord rc.1 rc.2) v) k = dictFind m k := by
        rw [dictFind_dictInsert, if_neg h₂]
      rw [hstep]
      by_cases h₁ : ∃ rc₂ ∈ t, k = row_col_to_coord rc₂.1 rc₂.2
      · have hc : ∃ rc₂ ∈ rc :: t, k = row_col_to_coord rc₂.1 rc₂.2 := by
          obtain ⟨rc₂, hm, hk⟩ := h₁
          exact ⟨rc₂, List.mem_cons_of_mem rc hm, hk⟩
        rw [if_pos h₁, if_pos hc]
      · have hc : ¬ ∃ rc₂ ∈ rc :: t, k = row_col_to_coord rc₂.1 rc₂.2 := by
          rintro ⟨rc₂, hm, hk⟩
          rcases List.mem_cons.mp hm with rfl | hm₂
          · exact h₂ hk
          · exact h₁ ⟨rc₂, hm₂, hk⟩
        rw [if_neg h₁, if_neg hc]

theorem matchCellRe_groups {s l d : Str} (h : matchCellRe s = some (l, d)) :
    l ≠ [] ∧ (∀ c ∈ l, isUpperAZ c = true) := by
  simp only [matchCellRe] at h
  split at h
  · exact absurd h (by simp)
  · split at h
    · exact absurd h (by simp)
    · split at h
      · simp only [Option.some.injEq, Prod.mk.injEq] at h
        obtain ⟨hl, _⟩ := h
        subst hl
        refine ⟨by assumption, ?_⟩
        exact fun c hc => List.mem_takeWhile_imp hc
      · exact absurd h (by simp)

theorem matchRangeRe_groups {s l₁ d₁ l₂ d₂ : Str}
    (h : matchRangeRe s = some (l₁, d₁, l₂, d₂)) :
    l₁ ≠ [] ∧ (∀ c ∈ l₁, isUpperAZ c = true) ∧
    l₂ ≠ [] ∧ (∀ c ∈ l₂, isUpperAZ c = true) := by
  simp only [matchRangeRe] at h
  split at h
  · exact absurd h (by simp)
  · split at h
    · exact absurd h (by simp)
    · split at h
      · split at h
        · exact absurd h (by simp)
        · split at h
          · exact absurd h (by simp)
          · split at h
            · simp only [Option.some.injEq, Prod.mk.injEq] at h
              obtain ⟨hl₁, _, hl₂, _⟩ := h
              subst hl₁
              subst hl₂
              refine ⟨by assumption, fun c hc => List.mem_takeWhile_imp hc,
                by assumption, fun c hc => List.mem_takeWhile_imp hc⟩
            · exact absurd h (by simp)
      · exact absurd h (by simp)

theorem parse_range_ref_bounds {ref : Str} {rng : RangeRef}
    (h : parse_range_ref ref = some rng) :
    0 ≤ rng.start_row ∧ 1 ≤ rng.start_col := by
  simp only [parse_range_ref] at h
  cases hm : matchRangeRe (removeDollars ref) with
  | some quad =>
    obtain ⟨l₁, d₁, l₂, d₂⟩ := quad
    rw [hm] at h
    obtain ⟨hl₁ne, hl₁up, hl₂ne, hl₂up⟩ := matchRangeRe_groups hm
    simp only [Option.some.injEq] at h
    subst h
    constructor
    · simp only []
      positivity
    · exact le_min (col_to_index_pos hl₁ne hl₁up) (col_to_index_pos hl₂ne hl₂up)
  | none =>
    rw [hm] at h
    cases hc : matchCellRe (removeDollars ref) with
    | some pair =>
      obtain ⟨l, d⟩ := pair
      rw [hc] at h
      obtain ⟨hlne, hlup⟩ := matchCellRe_groups hc
      simp only [Option.some.injEq] at h
      subst h
      exact ⟨by positivity, col_to_index_pos hlne hlup⟩
    | none =>
      rw [hc] at h
      cases h

/-- The three invariants maintained by `_parse_merges` over the merge list
and merge map: every map binding is the ref of a processed merge covering
the bound coordinate; every covered coordinate of every processed merge is
bound; and every processed merge has nonnegative start row and a start
column of at least 1. -/
def MergeInv (st : List RangeRef × List (Str × Str)) : Prop :=
  (∀ k v, dictFind st.2 k = some v →
    ∃ rng ∈ st.1, v = rng.ref ∧
      ∃ r c, (r, c) ∈ iter_cells_in_range rng ∧ k = row_col_to_coord r c) ∧
  (∀ rng ∈ st.1, ∀ r c, (r, c) ∈ iter_cells_in_range rng →
    dictFind st.2 (row_col_to_coord r c) ≠ none) ∧
  (∀ rng ∈ st.1, 0 ≤ rng.start_row ∧ 1 ≤ rng.start_col)

theorem merge_inv_step (acc : List RangeRef × List (Str × Str)) (rng : RangeRef)
    (hinv : MergeInv acc) (hb : 0 ≤ rng.start_row ∧ 1 ≤ rng.start_col) :
    MergeInv (acc.1 ++ [rng],
      (iter_cells_in_range rng).foldl
        (fun m rc => dictInsert m (row_col_to_coord rc.1 rc.2) rng.ref) acc.2) := by
  obtain ⟨hsound, hcomp, hbounds⟩ := hinv
  refine ⟨?_, ?_, ?_⟩
  · intro k v hkv
    rw [fold_insert_find] at hkv
    by_cases hin : ∃ rc ∈ iter_cells_in_range rng, k = row_col_to_coord rc.1 rc.2
    · rw [if_pos hin] at hkv
      obtain ⟨⟨r, c⟩, hrc, hk⟩ := hin
      injection hkv with hv
      exact ⟨rng, List.mem_append_right _ (List.mem_singleton_self rng), hv.symm,
        r, c, hrc, hk⟩
    · rw [if_neg hin] at hkv
      obtain ⟨rng₂, hm, hv, r, c, hrc, hk⟩ := hsound k v hkv
      exact ⟨rng₂, List.mem_append_left _ hm, hv, r, c, hrc, hk⟩
  · intro rng₂ hm r c hrc
    rw [fold_insert_find]
    rcases List.mem_append.mp hm with hm | hm
    · by_cases hin : ∃ rc ∈ iter_cells_in_range rng,
        row_col_to_coord r c = row_col_to_coord rc.1 rc.2
      · rw [if_pos hin]
        exact Option.some_ne_none _
      · rw [if_neg hin]
        exact hcomp rng₂ hm r c hrc
    · rw [List.mem_singleton] at hm
      subst hm
      have hin : ∃ rc ∈ iter_cells_in_range rng₂,
          row_col_to_coord r c = row_col_to_coord rc.1 rc.2 := ⟨(r, c), hrc, rfl⟩
      rw [if_pos hin]
      exact Option.some_ne_none _
  · intro rng₂ hm
    rcases List.mem_append.mp hm with hm | hm
    · exact hbounds rng₂ hm
    · rw [List.mem_singleton] at hm
      subst hm
      exact hb

theorem parse_merges_aux_inv :
    ∀ (refs : List (Option Str)) (acc : List RangeRef × List (Str × Str)),
      MergeInv acc → MergeInv (parse_merges_aux acc refs) := by
  intro refs
  induction refs with
  | nil => exact fun acc h => h
  | cons oref rest ih =>
    intro acc hinv
    simp only [parse_merges_aux]
    apply ih
    cases oref with
    | none => exact hinv
    | some ref =>
      by_cases href : ref = []
      · simp only [href, ite_true]
        exact hinv
      · simp only [href, ite_false]
        cases hp : parse_range_ref ref with
        | none => exact hinv
        | some rng => exact merge_inv_step acc rng hinv (parse_range_ref_bounds hp)

/-- C5 (amended): after parsing a sheet's merges, every coordinate inside a
merge range — the anchor (top-left) cell included — is a key of the
coordinate-to-merge-reference map, bound to the reference string of a parsed
merge covering that coordinate (the merge itself whenever merges do not
overlap); in particular the anchor coordinate IS a key of the map. -/
theorem c5_merge_map_coverage (refs : List (Option Str)) :
    ∀ rng ∈ (parse_merges refs).1, ∀ r c, (r, c) ∈ iter_cells_in_range rng →
      ∃ rng₂ ∈ (parse_merges refs).1,
        dictFind (parse_merges refs).2 (row_col_to_coord r c) = some rng₂.ref ∧
        (r, c) ∈ iter_cells_in_range rng₂ := by
  have hbase : MergeInv ([], []) := by
    refine ⟨?_, ?_, ?_⟩
    · intro k v h
      simp [dictFind] at h
    · intro rng h
      simp at h
    · intro rng h
      simp at h
  obtain ⟨hsound, hcomp, hbounds⟩ := parse_merges_aux_inv refs ([], []) hbase
  intro rng hrng r c hrc
  have hne := hcomp rng hrng r c hrc
  cases hdf : dictFind (parse_merges refs).2 (row_col_to_coord r c) with
  | none => exact absurd hdf hne
  | some v =>
    obtain ⟨rng₂, hrng₂, hv, r', c', hrc', hk⟩ := hsound _ _ hdf
    have hb := hbounds rng hrng
    have hb₂ := hbounds rng₂ hrng₂
    have hm := mem_iter_cells.mp hrc
    have hm' := mem_iter_cells.mp hrc'
    obtain ⟨hr, hc⟩ := row_col_to_coord_inj
      (by omega) (by omega) (by omega) (by omega) hk
    refine ⟨rng₂, hrng₂, ?_, ?_⟩
    · rw [hv]
    · rw [hr, hc]
      exact hrc'

/-- Witness for C5's amended coverage statement at the anchor cell `A1` of
the merge `"A1:B2"`. -/
theorem c5_merge_map_coverage_witness :
    (⟨str "A1:B2", 1, 1, 2, 2⟩ : RangeRef) ∈ (parse_merges [some (str "A1:B2")]).1 ∧
    ((1 : Int), (1 : Int)) ∈ iter_cells_in_range ⟨str "A1:B2", 1, 1, 2, 2⟩ ∧
    ∃ rng₂ ∈ (parse_merges [some (str "A1:B2")]).1,
      dictFind (parse_merges [some (str "A1:B2")]).2 (row_col_to_coord 1 1) = some rng₂.ref ∧
      ((1 : Int), (1 : Int)) ∈ iter_cells_in_range rng₂ :=
  ⟨by decide, by decide,
    c5_merge_map_coverage [some (str "A1:B2")] ⟨str "A1:B2", 1, 1, 2, 2⟩
      (by decide) 1 1 (by decide)⟩

/-- A grid coordinate `(row, col)` as used by the region builder. -/
abbrev Point := Int × Int

/-- Python `set.add`, modelled on an insertion-ordered duplicate-free list. -/
def setAdd (s : List Point) (p : Point) : List Point :=
  if p ∈ s then s else s ++ [p]

/-- `str.split()` with no separator: split on whitespace runs, producing no
empty tokens. -/
def splitWsAux : Str → Str → List Str
  | [], cur => if cur = [] then [] else [cur.reverse]
  | c :: rest, cur =>
    if isSpace c then
      (if cur = [] then [] else [cur.reverse]) ++ splitWsAux rest []
    else splitWsAux rest (c :: cur)

/-- `sqref.split()` from `parse_sqref` in utils.py. -/
def splitWs (s : Str) : List Str := splitWsAux s []

/-- `parse_sqref` from utils.py: split the sqref on whitespace, parse each
token as a range, silently skipping empty or unparsable tokens. -/
def parse_sqref (sqref : Str) : List RangeRef :=
  (splitWs sqref).filterMap (fun token =>
    let t := pyStrip token
    if t = [] then none else parse_range_ref t)

/-- The occupancy test on a present cell from `build_sheet_regions`
(regions.py line 25): truthy value, truthy formula, or a style id other
than `None`/`"0"`. -/
def cellOccupancyCond (cell : CellData) : Bool :=
  cell.value ≠ [] ||
  (match cell.formula with
   | some f => f ≠ []
   | none => false) ||
  !(cell.style_id = none || cell.style_id = some (str "0"))

/-- The `in_base` closure of `build_sheet_regions`. -/
def in_base (base_ranges : List RangeRef) (row col : Int) : Bool :=
  base_ranges.any (fun rng =>
    rng.start_row ≤ row && row ≤ rng.end_row && rng.start_col ≤ col && col ≤ rng.end_col)

/-- `_fallback_base_ranges` from regions.py; `none` models the `ValueError`
`rowcol_to_coord` would raise on a cell bounding box with row or column
below 1. -/
def fallback_base_ranges (sheet : SheetDoc) : Option (List RangeRef) :=
  match (if sheet.dimension_ref = [] then none else parse_range_ref sheet.dimension_ref) with
  | some rng => some [rng]
  | none =>
    match sheet.cells with
    | [] => some []
    | c₀ :: rest =>
      let min_row := rest.foldl (fun a cell => min a cell.row) c₀.row
      let max_row := rest.foldl (fun a cell => max a cell.row) c₀.row
      let min_col := rest.foldl (fun a cell => min a cell.col) c₀.col
      let max_col := rest.foldl (fun a cell => max a cell.col) c₀.col
      match rowcol_to_coord min_row min_col, rowcol_to_coord max_row max_col with
      | some a, some b => some [⟨a ++ [':'] ++ b, min_row, min_col, max_row, max_col⟩]
      | _, _ => none

/-- `base_ranges = sheet.print_areas[:] if sheet.print_areas else
_fallback_base_ranges(sheet)` from regions.py. -/
def sheet_base_ranges (sheet : SheetDoc) : Option (List RangeRef) :=
  if sheet.print_areas ≠ [] then some sheet.print_areas else fallback_base_ranges sheet

/-- The first occupancy pass of `build_sheet_regions`: present cells that
lie in a base range and satisfy the occupancy condition. -/
def occupied_pass1 (sheet : SheetDoc) (base : List RangeRef) : List Point :=
  sheet.cells.foldl
    (fun occ cell =>
      if in_base base cell.row cell.col && cellOccupancyCond cell then
        setAdd occ (cell.row, cell.col)
      else occ) []

/-- The merge pass of `build_sheet_regions`: every in-base cell covered by a
merge range. -/
def occupied_pass2 (sheet : SheetDoc) (base : List RangeRef) (occ₀ : List Point) : List Point :=
  sheet.merges.foldl
    (fun occ rng =>
      (iter_cells_in_range rng).foldl
        (fun occ rc => if in_base base rc.1 rc.2 then setAdd occ rc else occ) occ) occ₀

/-- The data-validation pass of `build_sheet_regions`, shared by the
occupied set and the `dv_coords` flag set: every in-base cell covered by a
parsed sqref range of a data validation. -/
def occupied_pass3 (sheet : SheetDoc) (base : List RangeRef) (occ₀ : List Point) : List Point :=
  sheet.data_validations.foldl
    (fun occ dv =>
      (parse_sqref dv.sqref).foldl
        (fun occ rng =>
          (iter_cells_in_range rng).foldl
            (fun occ rc => if in_base base rc.1 rc.2 then setAdd occ rc else occ) occ) occ) occ₀

/-- The occupied coordinate set of `build_sheet_regions` (modelled as an
insertion-ordered duplicate-free list). -/
def occupied_list (sheet : SheetDoc) (base : List RangeRef) : List Point :=
  occupied_pass3 sheet base (occupied_pass2 sheet base (occupied_pass1 sheet base))

/-- The `dv_coords` set of `build_sheet_regions`. -/
def dv_coords_list (sheet : SheetDoc) (base : List RangeRef) : List Point :=
  occupied_pass3 sheet base []

/-- The four 4-connected neighbours probed by `_connected_components`. -/
def neighbors (p : Point) : List Point :=
  [(p.1 - 1, p.2), (p.1 + 1, p.2), (p.1, p.2 - 1), (p.1, p.2 + 1)]

/-- The inner neighbour loop of `_connected_components`: each neighbour
still in `remaining` is moved out of `remaining`, added to the component and
appended to the BFS queue. -/
def visit_neighbors :
    List Point → List Point → List Point → List Point →
      List Point × List Point × List Point
  | [], queue, remaining, comp => (queue, remaining, comp)
  | n :: ns, queue, remaining, comp =>
    if n ∈ remaining then
      visit_neighbors ns (queue ++ [n]) (remaining.erase n) (setAdd comp n)
    else visit_neighbors ns queue remaining comp

/-- The BFS loop of `_connected_components`, with explicit fuel (each
iteration pops the queue head and strictly decreases
`queue.length + 2 * remaining.length`, so the fuel passed by
`connected_components` is never exhausted); returns `(comp, remaining)`. -/
def bfs : Nat → List Point → List Point → List Point → List Point × List Point
  | _, [], remaining, comp => (comp, remaining)
  | 0, _ :: _, remaining, comp => (comp, remaining)
  | fuel + 1, q :: queue, remaining, comp =>
    let t := visit_neighbors (neighbors q) queue remaining comp
    bfs fuel t.1 t.2.1 t.2.2

/-- The outer while-loop of `_connected_components`: Python's arbitrary
`set.pop()` is modelled as taking the head of the insertion-ordered list
(the properties proved below hold for every pop order).  Fuelled: each
iteration strictly shrinks `remaining`, so `points.length` fuel suffices. -/
def connected_components_aux : Nat → List Point → List (List Point)
  | _, [] => []
  | 0, _ :: _ => []
  | fuel + 1, start :: rest =>
    let t := bfs (1 + 2 * rest.length) [start] rest [start]
    t.1 :: connected_components_aux fuel t.2

/-- `_connected_components` from regions.py. -/
def connected_components (points : List Point) : List (List Point) :=
  connected_components_aux points.length points

/-- The sort key `(min row, min col)` of a component
(`components.sort(key=...)` in regions.py); total as a `Bool` relation. -/
def comp_min_row : List Point → Int
  | [] => 0
  | p :: rest => rest.foldl (fun a q => min a q.1) p.1

def comp_min_col : List Point → Int
  | [] => 0
  | p :: rest => rest.foldl (fun a q => min a q.2) p.2

def comp_max_row : List Point → Int
  | [] => 0
  | p :: rest => rest.foldl (fun a q => max a q.1) p.1

def comp_max_col : List Point → Int
  | [] => 0
  | p :: rest => rest.foldl (fun a q => max a q.2) p.2

/-- Lexicographic comparison on the component sort key. -/
def comp_key_le (c₁ c₂ : List Point) : Bool :=
  comp_min_row c₁ < comp_min_row c₂ ||
  (comp_min_row c₁ = comp_min_row c₂ && comp_min_col c₁ ≤ comp_min_col c₂)

/-- `sorted(component)`: lexicographic order on `(row, col)` tuples. -/
def point_le (p q : Point) : Bool :=
  p.1 < q.1 || (p.1 = q.1 && p.2 ≤ q.2)

/-- One row entry of a region (`build_sheet_regions` lines 64-109): the cell
record is looked up in the sheet's coordinate map, merge/validation flags
are attached, and coordinates with no underlying cell become `virtual`
placeholder rows; `none` models the `ValueError` `rowcol_to_coord` raises on
an invalid coordinate. -/
def build_region_row (sheet : SheetDoc) (dv_coords : List Point) (rc : Point) :
    Option RegionCellRow :=
  match rowcol_to_coord rc.1 rc.2 with
  | none => none
  | some coord =>
    let cell := ((sheet.cell_map.find? (fun kv => kv.1 = coord)).map (fun kv => kv.2))
    let merge_ref := dictFind sheet.merge_map coord
    let flags₀ :=
      (if merge_ref ≠ none then [str "merged"] else []) ++
      (if rc ∈ dv_coords then [str "data_validation"] else [])
    match cell with
    | none =>
      some ⟨coord, [], none, none, str "virtual", none, merge_ref,
        flags₀ ++ [str "virtual"]⟩
    | some cell =>
      let flags := flags₀ ++
        (if cell.value ≠ [] then [str "has_value"] else []) ++
        (if (match cell.formula with
             | some f => decide (f ≠ [])
             | none => false) then [str "has_formula"] else []) ++
        (if (match cell.cached_value with
             | some cv => decide (cv ≠ [])
             | none => false) then [str "has_cached"] else []) ++
        (if !(cell.style_id = none || cell.style_id = some (str "0")) then
          [str "non_default_style"] else [])
      some ⟨coord, cell.value, cell.formula, cell.cached_value, cell.cell_type,
        cell.style_id, merge_ref, flags⟩

/-- The row list of one region, over the component sorted in tuple order. -/
def build_rows (sheet : SheetDoc) (dv_coords : List Point) :
    List Point → Option (List RegionCellRow)
  | [] => some []
  | p :: rest =>
    match build_region_row sheet dv_coords p, build_rows sheet dv_coords rest with
    | some row, some rows => some (row :: rows)
    | _, _ => none

/-- One `CellRegion` of `build_sheet_regions`: bounding-box bounds plus the
per-coordinate rows of the sorted component. -/
def build_region (sheet : SheetDoc) (dv_coords : List Point) (idx : Nat)
    (component : List Point) : Option CellRegion :=
  match rowcol_to_coord (comp_min_row component) (comp_min_col component),
        rowcol_to_coord (comp_max_row component) (comp_max_col component) with
  | some a, some b =>
    match build_rows sheet dv_coords (component.mergeSort point_le) with
    | some rows =>
      some ⟨(idx : Int),
        ⟨a ++ [':'] ++ b, comp_min_row component, comp_min_col component,
          comp_max_row component, comp_max_col component⟩, rows⟩
    | none => none
  | _, _ => none

/-- `for region_idx, component in enumerate(components, start=1)` from
regions.py. -/
def build_regions_list (sheet : SheetDoc) (dv_coords : List Point) :
    Nat → List (List Point) → Option (List CellRegion)
  | _, [] => some []
  | idx, comp :: rest =>
    match build_region sheet dv_coords idx comp,
          build_regions_list sheet dv_coords (idx + 1) rest with
    | some region, some regions => some (region :: regions)
    | _, _ => none

/-- `build_sheet_regions` from regions.py; `none` models a `ValueError`
escaping from `rowcol_to_coord` (possible only for coordinates outside the
1-based grid). -/
def build_sheet_regions (sheet : SheetDoc) : Option (List CellRegion) :=
  match sheet_base_ranges sheet with
  | none => none
  | some base =>
    if base = [] then some []
    else
      let occupied := occupied_list sheet base
      if occupied = [] then some []
      else
        build_regions_list sheet (dv_coords_list sheet base) 1
          ((connected_components occupied).mergeSort comp_key_le)

/-- The coordinates named by a region's rows, recovered by re-parsing each
row's coordinate string. -/
def regionPoints (region : CellRegion) : List Point :=
  region.rows.filterMap (fun row => coord_to_rowcol row.coord)

theorem mem_setAdd {s : List Point} {p q : Point} :
    q ∈ setAdd s p ↔ q ∈ s ∨ q = p := by
  by_cases h : p ∈ s
  · simp only [setAdd, if_pos h]
    constructor
    · exact Or.inl
    · rintro (hq | rfl)
      · exact hq
      · exact h
  · simp [setAdd, if_neg h]

theorem setAdd_nodup {s : List Point} {p : Point} (h : s.Nodup) :
    (setAdd s p).Nodup := by
  by_cases hp : p ∈ s
  · simpa [setAdd, if_pos hp] using h
  · simp only [setAdd, if_neg hp]
    exact List.Nodup.append h (List.nodup_singleton p) (by simpa using hp)

theorem foldl_preserve_nodup {β : Type} (g : List Point → β → List Point)
    (hg : ∀ s b, s.Nodup → (g s b).Nodup) :
    ∀ (l : List β) (s : List Point), s.Nodup → (l.foldl g s).Nodup := by
  intro l
  induction l with
  | nil => exact fun s h => h
  | cons b t ih => exact fun s h => ih (g s b) (hg s b h)

theorem occupied_pass1_nodup (sheet : SheetDoc) (base : List RangeRef) :
    (occupied_pass1 sheet base).Nodup := by
  apply foldl_preserve_nodup _ _ _ _ List.nodup_nil
  intro s cell h
  split
  · exact setAdd_nodup h
  · exact h

theorem occupied_pass2_nodup (sheet : SheetDoc) (base : List RangeRef)
    {occ₀ : List Point} (h₀ : occ₀.Nodup) : (occupied_pass2 sheet base occ₀).Nodup := by
  apply foldl_preserve_nodup _ _ _ _ h₀
  intro s rng h
  apply foldl_preserve_nodup _ _ _ _ h
  intro s' rc h'
  split
  · exact setAdd_nodup h'
  · exact h'

theorem occupied_pass3_nodup (sheet : SheetDoc) (base : List RangeRef)
    {occ₀ : List Point} (h₀ : occ₀.Nodup) : (occupied_pass3 sheet base occ₀).Nodup := by
  apply foldl_preserve_nodup _ _ _ _ h₀
  intro s dv h
  apply foldl_preserve_nodup _ _ _ _ h
  intro s' rng h'
  apply foldl_preserve_nodup _ _ _ _ h'
  intro s'' rc h''
  split
  · exact setAdd_nodup h''
  · exact h''

theorem occupied_list_nodup (sheet : SheetDoc) (base : List RangeRef) :
    (occupied_list sheet base).Nodup :=
  occupied_pass3_nodup sheet base
    (occupied_pass2_nodup sheet base (occupied_pass1_nodup sheet base))

/-- Invariants of the neighbour-visiting loop: `remaining` stays
duplicate-free and only shrinks, the component only grows, component and
`remaining` stay disjoint, and their union is conserved. -/
theorem visit_neighbors_spec :
    ∀ (ns queue remaining comp : List Point),
      remaining.Nodup → (∀ p ∈ comp, p ∉ remaining) →
      (visit_neighbors ns queue remaining comp).2.1.Nodup ∧
      (∀ p ∈ (visit_neighbors ns queue remaining comp).2.2,
        p ∉ (visit_neighbors ns queue remaining comp).2.1) ∧
      (∀ p, (p ∈ (visit_neighbors ns queue remaining comp).2.2 ∨
             p ∈ (visit_neighbors ns queue remaining comp).2.1) ↔
            (p ∈ comp ∨ p ∈ remaining)) ∧
      (∀ p ∈ comp, p ∈ (visit_neighbors ns queue remaining comp).2.2) ∧
      (∀ p ∈ (visit_neighbors ns queue remaining comp).2.1, p ∈ remaining) ∧
      (visit_neighbors ns queue remaining comp).2.1.length ≤ remaining.length := by
  intro ns
  induction ns with
  | nil =>
    intro queue remaining comp hnd hdisj
    exact ⟨hnd, hdisj, fun p => Iff.rfl, fun p hp => hp, fun p hp => hp, le_rfl⟩
  | cons n ns ih =>
    intro queue remaining comp hnd hdisj
    by_cases hn : n ∈ remaining
    · have hstep : visit_neighbors (n :: ns) queue remaining comp =
          visit_neighbors ns (queue ++ [n]) (remaining.erase n) (setAdd comp n) := by
        simp [visit_neighbors, hn]
      have hnd' : (remaining.erase n).Nodup := hnd.erase n
      have hdisj' : ∀ p ∈ setAdd comp n, p ∉ remaining.erase n := by
        intro p hp hpe
        rw [hnd.mem_erase_iff] at hpe
        rcases mem_setAdd.mp hp with hp | rfl
        · exact hdisj p hp hpe.2
        · exact hpe.1 rfl
      obtain ⟨h₁, h₂, h₃, h₄, h₅, h₆⟩ :=
        ih (queue ++ [n]) (remaining.erase n) (setAdd comp n) hnd' hdisj'
      rw [hstep]
      refine ⟨h₁, h₂, ?_, ?_, ?_, ?_⟩
      · intro p
        rw [h₃ p]
        rw [mem_setAdd, hnd.mem_erase_iff]
        constructor
        · rintro ((hp | rfl) | ⟨_, hp⟩)
          · exact Or.inl hp
          · exact Or.inr hn
          · exact Or.inr hp
        · rintro (hp | hp)
          · exact Or.inl (Or.inl hp)
          · by_cases hpn : p = n
            · exact Or.inl (Or.inr hpn)
            · exact Or.inr ⟨hpn, hp⟩
      · intro p hp
        exact h₄ p (mem_setAdd.mpr (Or.inl hp))
      · intro p hp
        exact List.mem_of_mem_erase (h₅ p hp)
      · calc (visit_neighbors ns (queue ++ [n]) (remaining.erase n) (setAdd comp n)).2.1.length
            ≤ (remaining.erase n).length := h₆
          _ ≤ remaining.length := List.length_erase_le n remaining
    · have hstep : visit_neighbors (n :: ns) queue remaining comp =
          visit_neighbors ns queue remaining comp := by
        simp [visit_neighbors, hn]
      rw [hstep]
      exact ih queue remaining comp hnd hdisj

/-- Invariants of the fuelled BFS loop, for every fuel value: the component
and `remaining` it returns are disjoint, conserve the union, extend the
starting component, and `remaining` only shrinks. -/
theorem bfs_spec :
    ∀ (fuel : Nat) (queue remaining comp : List Point),
      remaining.Nodup → (∀ p ∈ comp, p ∉ remaining) →
      (bfs fuel queue remaining comp).2.Nodup ∧
      (∀ p ∈ (bfs fuel queue remaining comp).1,
        p ∉ (bfs fuel queue remaining comp).2) ∧
      (∀ p, (p ∈ (bfs fuel queue remaining comp).1 ∨
             p ∈ (bfs fuel queue remaining comp).2) ↔
            (p ∈ comp ∨ p ∈ remaining)) ∧
      (∀ p ∈ comp, p ∈ (bfs fuel queue remaining comp).1) ∧
      (∀ p ∈ (bfs fuel queue remaining comp).2, p ∈ remaining) ∧
      (bfs fuel queue remaining comp).2.length ≤ remaining.length := by
  intro fuel
  induction fuel with
  | zero =>
    intro queue remaining comp hnd hdisj
    cases queue with
    | nil =>
      exact ⟨hnd, fun p hp hq => hdisj p hp hq, fun p => Iff.rfl,
        fun p hp => hp, fun p hp => hp, le_rfl⟩
    | cons q qs =>
      exact ⟨hnd, fun p hp hq => hdisj p hp hq, fun p => Iff.rfl,
        fun p hp => hp, fun p hp => hp, le_rfl⟩
  | succ fuel ih =>
    intro queue remaining comp hnd hdisj
    cases queue with
    | nil =>
      exact ⟨hnd, fun p hp hq => hdisj p hp hq, fun p => Iff.rfl,
        fun p hp => hp, fun p hp => hp, le_rfl⟩
    | cons q qs =>
      obtain ⟨v₁, v₂, v₃, v₄, v₅, v₆⟩ :=
        visit_neighbors_spec (neighbors q) qs remaining comp hnd hdisj
      have hstep : bfs (fuel + 1) (q :: qs) remaining comp =
          bfs fuel (visit_neighbors (neighbors q) qs remaining comp).1
            (visit_neighbors (neighbors q) qs remaining comp).2.1
            (visit_neighbors (neighbors q) qs remaining comp).2.2 := rfl
      obtain ⟨b₁, b₂, b₃, b₄, b₅, b₆⟩ :=
        ih (visit_neighbors (neighbors q) qs remaining comp).1
          (visit_neighbors (neighbors q) qs remaining comp).2.1
          (visit_neighbors (neighbors q) qs remaining comp).2.2 v₁ (fun p hp hq => v₂ p hp hq)
      rw [hstep]
      refine ⟨b₁, b₂, ?_, ?_, ?_, ?_⟩
      · intro p
        rw [b₃ p]
        exact v₃ p
      · intro p hp
        exact b₄ p (v₄ p hp)
      · intro p hp
        exact v₅ p (b₅ p hp)
      · exact le_trans b₆ v₆

/-- The components produced by the (fuelled) outer loop are nonempty, drawn
from the input point set, cover it, and are pairwise disjoint — provided
the fuel is at least the number of points, which `connected_components`
guarantees. -/
theorem connected_components_aux_spec :
    ∀ (fuel : Nat) (points : List Point), points.Nodup → points.length ≤ fuel →
      (∀ comp ∈ connected_components_aux fuel points, comp ≠ []) ∧
      (∀ comp ∈ connected_components_aux fuel points, ∀ p ∈ comp, p ∈ points) ∧
      (∀ p ∈ points, ∃ comp ∈ connected_components_aux fuel points, p ∈ comp) ∧
      List.Pairwise (fun a b => ∀ p, p ∈ a → p ∉ b)
        (connected_components_aux fuel points) := by
  intro fuel
  induction fuel with
  | zero =>
    intro points hnd hlen
    cases points with
    | nil =>
      exact ⟨fun comp h => absurd h (by simp [connected_components_aux]),
        fun comp h => absurd h (by simp [connected_components_aux]),
        fun p h => absurd h (by simp), by simp [connected_components_aux]⟩
    | cons a t => simp at hlen
  | succ fuel ih =>
    intro points hnd hlen
    cases points with
    | nil =>
      exact ⟨fun comp h => absurd h (by simp [connected_components_aux]),
        fun comp h => absurd h (by simp [connected_components_aux]),
        fun p h => absurd h (by simp), by simp [connected_components_aux]⟩
    | cons start rest =>
      rw [List.nodup_cons] at hnd
      obtain ⟨hstart, hrest⟩ := hnd
      have hdisj : ∀ p ∈ [start], p ∉ rest := by
        intro p hp
        rw [List.mem_singleton] at hp
        subst hp
        exact hstart
      obtain ⟨b₁, b₂, b₃, b₄, b₅, b₆⟩ :=
        bfs_spec (1 + 2 * rest.length) [start] rest [start] hrest hdisj
      have hlen₂ : (bfs (1 + 2 * rest.length) [start] rest [start]).2.length ≤ fuel := by
        simp only [List.length_cons] at hlen
        omega
      obtain ⟨i₁, i₂, i₃, i₄⟩ :=
        ih (bfs (1 + 2 * rest.length) [start] rest [start]).2 b₁ hlen₂
      have hstep : connected_components_aux (fuel + 1) (start :: rest) =
          (bfs (1 + 2 * rest.length) [start] rest [start]).1 ::
            connected_components_aux fuel
              (bfs (1 + 2 * rest.length) [start] rest [start]).2 := rfl
      rw [hstep]
      refine ⟨?_, ?_, ?_, ?_⟩
      · intro comp hcomp
        rcases List.mem_cons.mp hcomp with rfl | hcomp
        · intro hnil
          have := b₄ start (List.mem_singleton_self start)
          rw [hnil] at this
          cases this
        · exact i₁ comp hcomp
      · intro comp hcomp p hp
        rcases List.mem_cons.mp hcomp with rfl | hcomp
        · have := (b₃ p).mp (Or.inl hp)
          rcases this with hp' | hp'
          · rw [List.mem_singleton] at hp'
            subst hp'
            exact List.mem_cons_self p rest
          · exact List.mem_cons_of_mem start hp'
        · exact List.mem_cons_of_mem start (b₅ p (i₂ comp hcomp p hp))
      · intro p hp
        rcases List.mem_cons.mp hp with rfl | hp
        · exact ⟨_, List.mem_cons_self _ _, b₄ p (List.mem_singleton_self p)⟩
        · have := (b₃ p).mpr (Or.inr hp)
          rcases this with hp' | hp'
          · exact ⟨_, List.mem_cons_self _ _, hp'⟩
          · obtain ⟨comp, hcomp, hpc⟩ := i₃ p hp'
            exact ⟨comp, List.mem_cons_of_mem _ hcomp, hpc⟩
      · refine List.Pairwise.cons ?_ i₄
        intro comp hcomp p hp hpc
        exact b₂ p hp (i₂ comp hcomp p hpc)

theorem foldl_min_fst_ge (l : List Point) (m : Int) :
    ∀ init : Int, m ≤ init → (∀ p ∈ l, m ≤ p.1) →
      m ≤ l.foldl (fun a q => min a q.1) init := by
  induction l with
  | nil => exact fun init h _ => h
  | cons p t ih =>
    intro init hinit hall
    simp only [List.foldl_cons]
    exact ih _ (le_min hinit (hall p (List.mem_cons_self p t)))
      (fun q hq => hall q (List.mem_cons_of_mem p hq))

theorem foldl_min_snd_ge (l : List Point) (m : Int) :
    ∀ init : Int, m ≤ init → (∀ p ∈ l, m ≤ p.2) →
      m ≤ l.foldl (fun a q => min a q.2) init := by
  induction l with
  | nil => exact fun init h _ => h
  | cons p t ih =>
    intro init hinit hall
    simp only [List.foldl_cons]
    exact ih _ (le_min hinit (hall p (List.mem_cons_self p t)))
      (fun q hq => hall q (List.mem_cons_of_mem p hq))

theorem foldl_max_fst_ge (l : List Point) (m : Int) :
    ∀ init : Int, m ≤ init →
      m ≤ l.foldl (fun a q => max a q.1) init := by
  induction l with
  | nil => exact fun init h => h
  | cons p t ih =>
    intro init hinit
    simp only [List.foldl_cons]
    exact ih _ (le_trans hinit (le_max_left _ _))

theorem foldl_max_snd_ge (l : List Point) (m : Int) :
    ∀ init : Int, m ≤ init →
      m ≤ l.foldl (fun a q => max a q.2) init := by
  induction l with
  | nil => exact fun init h => h
  | cons p t ih =>
    intro init hinit
    simp only [List.foldl_cons]
    exact ih _ (le_trans hinit (le_max_left _ _))

theorem comp_bounds_ge_one {comp : List Point} (hne : comp ≠ [])
    (hval : ∀ p ∈ comp, 1 ≤ p.1 ∧ 1 ≤ p.2) :
    1 ≤ comp_min_row comp ∧ 1 ≤ comp_min_col comp ∧
    1 ≤ comp_max_row comp ∧ 1 ≤ comp_max_col comp := by
  obtain ⟨p, rest, rfl⟩ := List.exists_cons_of_ne_nil hne
  have hp := hval p (List.mem_cons_self p rest)
  refine ⟨?_, ?_, ?_, ?_⟩
  · exact foldl_min_fst_ge rest 1 p.1 hp.1
      (fun q hq => (hval q (List.mem_cons_of_mem p hq)).1)
  · exact foldl_min_snd_ge rest 1 p.2 hp.2
      (fun q hq => (hval q (List.mem_cons_of_mem p hq)).2)
  · exact foldl_max_fst_ge rest 1 p.1 hp.1
  · exact foldl_max_snd_ge rest 1 p.2 hp.2

theorem rowcol_to_coord_eq {r c : Int} (hr : 1 ≤ r) (hc : 1 ≤ c) :
    rowcol_to_coord r c = some (index_to_col_digits c.toNat ++ intStr r) := by
  have hor : ¬ (r < 1 ∨ c < 1) := by omega
  have hc1 : ¬ c < 1 := by omega
  simp [rowcol_to_coord, if_neg hor, index_to_col, if_neg hc1]

theorem rowcol_to_coord_isSome {r c : Int} (hr : 1 ≤ r) (hc : 1 ≤ c) :
    ∃ s, rowcol_to_coord r c = some s :=
  ⟨_, rowcol_to_coord_eq hr hc⟩

theorem coord_to_rowcol_of_rowcol {r c : Int} {s : Str} (hr : 1 ≤ r) (hc : 1 ≤ c)
    (h : rowcol_to_coord r c = some s) : coord_to_rowcol s = some (r, c) := by
  have hrt := c8_coord_part r c hr hc
  rw [h] at hrt
  simpa using hrt

theorem build_region_row_some (sheet : SheetDoc) (dv : List Point) (p : Point)
    (hp : 1 ≤ p.1 ∧ 1 ≤ p.2) :
    ∃ row, build_region_row sheet dv p = some row ∧
      coord_to_rowcol row.coord = some p := by
  obtain ⟨coord, hrc⟩ := rowcol_to_coord_isSome hp.1 hp.2
  have hback : coord_to_rowcol coord = some (p.1, p.2) :=
    coord_to_rowcol_of_rowcol hp.1 hp.2 hrc
  simp only [build_region_row, hrc]
  cases hfind : sheet.cell_map.find? (fun kv => kv.1 = coord) with
  | none =>
    simp only [hfind, Option.map_none']
    exact ⟨_, rfl, by simpa using hback⟩
  | some kv =>
    simp only [hfind, Option.map_some']
    exact ⟨_, rfl, by simpa using hback⟩

theorem build_rows_spec (sheet : SheetDoc) (dv : List Point) :
    ∀ l : List Point, (∀ p ∈ l, 1 ≤ p.1 ∧ 1 ≤ p.2) →
      ∃ rows, build_rows sheet dv l = some rows ∧
        rows.filterMap (fun row => coord_to_rowcol row.coord) = l := by
  intro l
  induction l with
  | nil => exact fun _ => ⟨[], rfl, rfl⟩
  | cons p t ih =>
    intro hval
    obtain ⟨row, hrow, hcoord⟩ :=
      build_region_row_some sheet dv p (hval p (List.mem_cons_self p t))
    obtain ⟨rows, hrows, hfm⟩ := ih (fun q hq => hval q (List.mem_cons_of_mem p hq))
    refine ⟨row :: rows, ?_, ?_⟩
    · simp only [build_rows, hrow, hrows]
    · simp only [List.filterMap_cons, hcoord, hfm]

theorem build_region_spec (sheet : SheetDoc) (dv : List Point) (idx : Nat)
    (comp : List Point) (hne : comp ≠ [])
    (hval : ∀ p ∈ comp, 1 ≤ p.1 ∧ 1 ≤ p.2) :
    ∃ region, build_region sheet dv idx comp = some region ∧
      ∀ p, p ∈ regionPoints region ↔ p ∈ comp := by
  obtain ⟨h₁, h₂, h₃, h₄⟩ := comp_bounds_ge_one hne hval
  have hmin := rowcol_to_coord_eq h₁ h₂
  have hmax := rowcol_to_coord_eq h₃ h₄
  have hperm := List.mergeSort_perm comp point_le
  have hval' : ∀ p ∈ comp.mergeSort point_le, 1 ≤ p.1 ∧ 1 ≤ p.2 :=
    fun p hp => hval p (hperm.mem_iff.mp hp)
  obtain ⟨rows, hrows, hfm⟩ := build_rows_spec sheet dv (comp.mergeSort point_le) hval'
  simp only [build_region, hmin, hmax, hrows]
  refine ⟨_, rfl, ?_⟩
  intro p
  simp only [regionPoints]
  rw [hfm]
  exact hperm.mem_iff

theorem build_regions_list_spec (sheet : SheetDoc) (dv : List Point) :
    ∀ (comps : List (List Point)) (idx : Nat),
      (∀ comp ∈ comps, comp ≠ [] ∧ ∀ p ∈ comp, 1 ≤ p.1 ∧ 1 ≤ p.2) →
      ∃ regions, build_regions_list sheet dv idx comps = some regions ∧
        regions.length = comps.length ∧
        ∀ (i : Nat) (hi : i < regions.length) (hci : i < comps.length) (p : Point),
          p ∈ regionPoints (regions.get ⟨i, hi⟩) ↔ p ∈ comps.get ⟨i, hci⟩ := by
  intro comps
  induction comps with
  | nil =>
    intro idx _
    exact ⟨[], rfl, rfl, fun i hi => absurd hi (by simp)⟩
  | cons comp rest ih =>
    intro idx hall
    obtain ⟨hne, hval⟩ := hall comp (List.mem_cons_self comp rest)
    obtain ⟨region, hregion, hpts⟩ := build_region_spec sheet dv idx comp hne hval
    obtain ⟨regions, hregions, hlen, hiff⟩ :=
      ih (idx + 1) (fun c hc => hall c (List.mem_cons_of_mem comp hc))
    refine ⟨region :: regions, ?_, ?_, ?_⟩
    · simp only [build_regions_list, hregion, hregions]
    · simp [hlen]
    · intro i hi hci p
      cases i with
      | zero => exact hpts p
      | succ j =>
        exact hiff j (by simpa using hi) (by simpa using hci) p

theorem foldl_id {β γ : Type} (g : γ → β → γ) (hg : ∀ s b, g s b = s) :
    ∀ (l : List β) (s : γ), l.foldl g s = s := by
  intro l
  induction l with
  | nil => exact fun s => rfl
  | cons b t ih =>
    intro s
    rw [List.foldl_cons, hg]
    exact ih s

theorem in_base_nil (row col : Int) : in_base [] row col = false := rfl

theorem occupied_list_base_nil (sheet : SheetDoc) : occupied_list sheet [] = [] := by
  have h1 : occupied_pass1 sheet [] = [] := by
    apply foldl_id
    intro s cell
    simp [in_base_nil]
  have h2 : occupied_pass2 sheet [] [] = [] := by
    apply foldl_id
    intro s rng
    apply foldl_id
    intro s' rc
    simp [in_base_nil]
  have h3 : occupied_pass3 sheet [] [] = [] := by
    apply foldl_id
    intro s dv
    apply foldl_id
    intro s' rng
    apply foldl_id
    intro s'' rc
    simp [in_base_nil]
  simp only [occupied_list, h1, h2, h3]

/-- C1: for every sheet whose occupied coordinates lie on the 1-based grid
(which `rowcol_to_coord` otherwise rejects), `build_sheet_regions` succeeds
and its regions partition the occupied set: every occupied coordinate
appears in exactly one region, and every region coordinate is occupied. -/
theorem c1_regions_partition (sheet : SheetDoc) (base : List RangeRef)
    (hbase : sheet_base_ranges sheet = some base)
    (hval : ∀ p ∈ occupied_list sheet base, 1 ≤ p.1 ∧ 1 ≤ p.2) :
    ∃ regions, build_sheet_regions sheet = some regions ∧
      ∀ p : Point, p ∈ occupied_list sheet base ↔
        ∃! i : Fin regions.length, p ∈ regionPoints (regions.get i) := by
  by_cases hb0 : base = []
  · subst hb0
    refine ⟨[], ?_, ?_⟩
    · simp [build_sheet_regions, hbase]
    · intro p
      rw [occupied_list_base_nil]
      constructor
      · intro hp
        cases hp
      · rintro ⟨⟨i, hi⟩, _, _⟩
        simp at hi
  · by_cases hocc : occupied_list sheet base = []
    · refine ⟨[], ?_, ?_⟩
      · simp [build_sheet_regions, hbase, hb0, hocc]
      · intro p
        rw [hocc]
        constructor
        · intro hp
          cases hp
        · rintro ⟨⟨i, hi⟩, _, _⟩
          simp at hi
    · obtain ⟨cc₁, cc₂, cc₃, cc₄⟩ := connected_components_aux_spec
        (occupied_list sheet base).length (occupied_list sheet base)
        (occupied_list_nodup sheet base) le_rfl
      have hperm := List.mergeSort_perm
        (connected_components (occupied_list sheet base)) comp_key_le
      have cc₄' : List.Pairwise (fun a b => ∀ p, p ∈ a → p ∉ b)
          ((connected_components (occupied_list sheet base)).mergeSort comp_key_le) :=
        (hperm.pairwise_iff (fun hab p hpy hpx => hab p hpx hpy)).mpr cc₄
      have hall : ∀ comp ∈
          (connected_components (occupied_list sheet base)).mergeSort comp_key_le,
          comp ≠ [] ∧ ∀ p ∈ comp, 1 ≤ p.1 ∧ 1 ≤ p.2 := by
        intro comp hcomp
        have hcomp₀ := hperm.mem_iff.mp hcomp
        exact ⟨cc₁ comp hcomp₀,
          fun p hp => hval p (cc₂ comp hcomp₀ p hp)⟩
      obtain ⟨regions, hregions, hlen, hiff⟩ := build_regions_list_spec sheet
        (dv_coords_list sheet base)
        ((connected_components (occupied_list sheet base)).mergeSort comp_key_le)
        1 hall
      refine ⟨regions, ?_, ?_⟩
      · simp only [build_sheet_regions, hbase, if_neg hb0, if_neg hocc]
        exact hregions
      · intro p
        constructor
        · intro hp
          obtain ⟨comp, hcomp, hpc⟩ := cc₃ p hp
          have hcomp' : comp ∈
              (connected_components (occupied_list sheet base)).mergeSort comp_key_le :=
            hperm.mem_iff.mpr hcomp
          obtain ⟨⟨i, hi⟩, hgeti⟩ := List.mem_iff_get.mp hcomp'
          have hi' : i < regions.length := by omega
          refine ⟨⟨i, hi'⟩, ?_, ?_⟩
          · show p ∈ regionPoints (regions.get ⟨i, hi'⟩)
            rw [hiff i hi' hi p, hgeti]
            exact hpc
          · rintro ⟨j, hj⟩ hpj
            replace hpj : p ∈ regionPoints (regions.get ⟨j, hj⟩) := hpj
            have hj' : j < ((connected_components
                (occupied_list sheet base)).mergeSort comp_key_le).length := by omega
            rw [hiff j hj hj' p] at hpj
            have hne : j = i := by
              by_contra hne
              rcases Nat.lt_or_ge j i with hlt | hge
              · have := (List.pairwise_iff_get.mp cc₄') ⟨j, hj'⟩ ⟨i, hi⟩ hlt
                rw [hgeti] at this
                exact this p hpj hpc
              · have hlt : i < j := by omega
                have := (List.pairwise_iff_get.mp cc₄') ⟨i, hi⟩ ⟨j, hj'⟩ hlt
                rw [hgeti] at this
                exact this p hpc hpj
            exact Fin.ext hne
        · rintro ⟨⟨i, hi⟩, hpi, _⟩
          have hi' : i < ((connected_components
              (occupied_list sheet base)).mergeSort comp_key_le).length := by omega
          rw [hiff i hi hi' p] at hpi
          have hcomp : ((connected_components
              (occupied_list sheet base)).mergeSort comp_key_le).get ⟨i, hi'⟩ ∈
              (connected_components (occupied_list sheet base)).mergeSort comp_key_le :=
            List.get_mem _ _ _
          exact cc₂ _ (hperm.mem_iff.mp hcomp) p hpi

/-- A concrete sheet with two isolated occupied cells (`A1` and `C3`),
used to instantiate C1. -/
def c1SampleSheet : SheetDoc :=
  { index := 0, name := str "Sheet1", state := str "visible",
    path := str "xl/worksheets/sheet1.xml", dimension_ref := str "A1:C3",
    cells := [
      { coord := str "A1", row := 1, col := 1, cell_type := str "n",
        value := str "1", formula := none, cached_value := some (str "1"),
        style_id := none },
      { coord := str "C3", row := 3, col := 3, cell_type := str "n",
        value := str "2", formula := none, cached_value := some (str "2"),
        style_id := none }],
    cell_map := [], merges := [], merge_map := [], data_validations := [],
    print_areas := [], unsupported := [] }

/-- The base range `_fallback_base_ranges` derives for `c1SampleSheet`. -/
def c1SampleBase : List RangeRef := [⟨str "A1:C3", 1, 1, 3, 3⟩]

/-- Witness for C1 on `c1SampleSheet`. -/
theorem c1_regions_partition_witness :
    sheet_base_ranges c1SampleSheet = some c1SampleBase ∧
    (∀ p ∈ occupied_list c1SampleSheet c1SampleBase, 1 ≤ p.1 ∧ 1 ≤ p.2) ∧
    ∃ regions, build_sheet_regions c1SampleSheet = some regions ∧
      ∀ p : Point, p ∈ occupied_list c1SampleSheet c1SampleBase ↔
        ∃! i : Fin regions.length, p ∈ regionPoints (regions.get i) :=
  ⟨by decide, by decide,
    c1_regions_partition c1SampleSheet c1SampleBase (by decide) (by decide)⟩

/-- `AnchorPoint` from model.py. -/
structure AnchorPoint where
  col : Int
  row : Int
  col_off : Int
  row_off : Int
deriving DecidableEq, Repr

/-- `DrawingObject` from model.py.  Pixel geometry is modelled over `ℚ`
(the Python floats are EMU integers divided by 9525, which `ℚ` represents
exactly). -/
structure DrawingObject where
  object_uid : Str
  object_id : Str
  drawing_path : Str
  kind : Str
  name : Str
  text : Str
  anchor_type : Str
  anchor_from : Option AnchorPoint
  anchor_to : Option AnchorPoint
  bbox : ℚ × ℚ × ℚ × ℚ
  parent_uid : Option Str
  image_target : Option Str
  image_content_type : Option Str
  image_data_uri : Option Str
  raw_xml : Str
  extra : List (Str × Str)
deriving DecidableEq

/-- `ConnectorInfo` from model.py.  The two distance fields hold SQUARED
pixel distances: `math.hypot` is replaced by its square throughout, a
strictly monotone change on nonnegative values under which every comparison
the source performs (`dist < best_dist`, `d > threshold`) is preserved
exactly. -/
structure ConnectorInfo where
  object_uid : Str
  object_id : Str
  drawing_path : Str
  name : Str
  text : Str
  anchor_from : Option AnchorPoint
  anchor_to : Option AnchorPoint
  bbox : ℚ × ℚ × ℚ × ℚ
  arrow_head : Option Str
  arrow_tail : Option Str
  direction : Str
  source_uid : Option Str
  target_uid : Option Str
  resolved : Bool
  distance_source : Option ℚ
  distance_target : Option ℚ
  raw_xml : Str
deriving DecidableEq

/-- `_point_to_xy` from drawing.py: grid cell times the default column/row
pixel sizes (64/20 px) plus the EMU offset at 9525 EMU per pixel. -/
def point_to_xy (p : AnchorPoint) : ℚ × ℚ :=
  ((p.col : ℚ) * 64 + (p.col_off : ℚ) / 9525,
   (p.row : ℚ) * 20 + (p.row_off : ℚ) / 9525)

/-- `_connector_endpoint` from drawing.py: the anchor point when present,
else the matching bbox corner. -/
def connector_endpoint (anchor : Option AnchorPoint) (bbox : ℚ × ℚ × ℚ × ℚ)
    (start : Bool) : ℚ × ℚ :=
  match anchor with
  | some a => point_to_xy a
  | none => if start then (bbox.1, bbox.2.1) else (bbox.2.2.1, bbox.2.2.2)

/-- `_point_to_bbox_distance` from drawing.py, squared: 0 inside the box,
else `dx² + dy²` for the clamped axis gaps (the square of `math.hypot`). -/
def point_to_bbox_distSq (point : ℚ × ℚ) (bbox : ℚ × ℚ × ℚ × ℚ) : ℚ :=
  let px := point.1
  let py := point.2
  let x1 := bbox.1
  let y1 := bbox.2.1
  let x2 := bbox.2.2.1
  let y2 := bbox.2.2.2
  if x1 ≤ px ∧ px ≤ x2 ∧ y1 ≤ py ∧ py ≤ y2 then 0
  else
    let dx := max (x1 - px) (max 0 (px - x2))
    let dy := max (y1 - py) (max 0 (py - y2))
    dx ^ 2 + dy ^ 2

/-- `_nearest_node` from drawing.py: first-encountered strictly-nearest
node wins (squared distances). -/
def nearest_node (point : ℚ × ℚ) (nodes : List DrawingObject) :
    Option Str × Option ℚ :=
  nodes.foldl
    (fun acc node =>
      let dist := point_to_bbox_distSq point node.bbox
      match acc.2 with
      | none => (some node.object_uid, some dist)
      | some best => if dist < best then (some node.object_uid, some dist) else acc)
    (none, none)

/-- `_has_arrow` from drawing.py: a truthy marker whose lowering is not
`"none"`. -/
def has_arrow (marker : Option Str) : Bool :=
  match marker with
  | none => false
  | some m => m ≠ [] && m.map pyLower ≠ str "none"

/-- The threshold filter on one endpoint (lines 477-483 of drawing.py): the
nearest node's uid, discarded when its distance exceeds the threshold
(squared comparison). -/
def endpoint_match (nodes : List DrawingObject) (threshold : ℚ) (pt : ℚ × ℚ) :
    Option Str :=
  match nearest_node pt nodes with
  | (uid, some d) => if d > threshold ^ 2 then none else uid
  | (uid, none) => uid

/-- The direction classification of `infer_connectors` (lines 457-475). -/
def connector_direction (c : ConnectorInfo) : Str :=
  if has_arrow c.arrow_head && has_arrow c.arrow_tail then str "bidirectional"
  else if has_arrow c.arrow_tail then str "forward"
  else if has_arrow c.arrow_head then str "reverse"
  else str "undirected"

/-- The source endpoint chosen by the direction classification (the `"to"`
endpoint for head-only connectors, the `"from"` endpoint otherwise). -/
def connector_source_point (c : ConnectorInfo) : ℚ × ℚ :=
  if has_arrow c.arrow_head && has_arrow c.arrow_tail then
    connector_endpoint c.anchor_from c.bbox true
  else if has_arrow c.arrow_tail then connector_endpoint c.anchor_from c.bbox true
  else if has_arrow c.arrow_head then connector_endpoint c.anchor_to c.bbox false
  else connector_endpoint c.anchor_from c.bbox true

/-- The target endpoint chosen by the direction classification. -/
def connector_target_point (c : ConnectorInfo) : ℚ × ℚ :=
  if has_arrow c.arrow_head && has_arrow c.arrow_tail then
    connector_endpoint c.anchor_to c.bbox false
  else if has_arrow c.arrow_tail then connector_endpoint c.anchor_to c.bbox false
  else if has_arrow c.arrow_head then connector_endpoint c.anchor_from c.bbox true
  else connector_endpoint c.anchor_to c.bbox false

/-- The loop body of `infer_connectors` for a single connector (Python
mutates the record in place; the model returns the updated record). -/
def infer_one (node_objects : List DrawingObject) (threshold : ℚ)
    (c : ConnectorInfo) : ConnectorInfo :=
  let source_uid := endpoint_match node_objects threshold (connector_source_point c)
  let target_uid := endpoint_match node_objects threshold (connector_target_point c)
  let node_uids := node_objects.map (fun o => o.object_uid)
  { c with
    direction := connector_direction c,
    source_uid := source_uid,
    target_uid := target_uid,
    distance_source := (nearest_node (connector_source_point c) node_objects).2,
    distance_target := (nearest_node (connector_target_point c) node_objects).2,
    resolved :=
      match source_uid, target_uid with
      | some s, some t =>
        decide (s ≠ []) && decide (t ≠ []) && decide (s ≠ t) &&
        decide (s ∈ node_uids) && decide (t ∈ node_uids)
      | _, _ => false }

/-- The warning recorded for an unresolved connector. -/
def unresolved_warning (c : ConnectorInfo) : Str :=
  str "Unresolved connector: " ++ c.object_uid

/-- `infer_connectors` from drawing.py (default threshold 220 px): every
connector is processed in order, and each unresolved one appends one
warning; returns the updated connectors and warnings. -/
def infer_connectors (drawing_objects : List DrawingObject)
    (connectors : List ConnectorInfo) (warnings : List Str) :
    List ConnectorInfo × List Str :=
  let node_objects := drawing_objects.filter (fun o => o.kind ≠ str "cxnSp")
  connectors.foldl
    (fun acc c =>
      let c' := infer_one node_objects 220 c
      (acc.1 ++ [c'],
       acc.2 ++ if c'.resolved then [] else [unresolved_warning c']))
    ([], warnings)

/-- C3: arrowhead presence classifies the connector direction exactly as
bidirectional / forward / reverse / undirected, with the resolved source and
target endpoints swapped in the reverse (head-only) case, and a missing
marker or a marker lowering to `"none"` counting as no arrow. -/
theorem c3_connector_direction_classification :
    (∀ (nodes : List DrawingObject) (threshold : ℚ) (c : ConnectorInfo),
      (has_arrow c.arrow_head = true → has_arrow c.arrow_tail = true →
        (infer_one nodes threshold c).direction = str "bidirectional" ∧
        (infer_one nodes threshold c).source_uid =
          endpoint_match nodes threshold (connector_endpoint c.anchor_from c.bbox true) ∧
        (infer_one nodes threshold c).target_uid =
          endpoint_match nodes threshold (connector_endpoint c.anchor_to c.bbox false)) ∧
      (has_arrow c.arrow_head = false → has_arrow c.arrow_tail = true →
        (infer_one nodes threshold c).direction = str "forward" ∧
        (infer_one nodes threshold c).source_uid =
          endpoint_match nodes threshold (connector_endpoint c.anchor_from c.bbox true) ∧
        (infer_one nodes threshold c).target_uid =
          endpoint_match nodes threshold (connector_endpoint c.anchor_to c.bbox false)) ∧
      (has_arrow c.arrow_head = true → has_arrow c.arrow_tail = false →
        (infer_one nodes threshold c).direction = str "reverse" ∧
        (infer_one nodes threshold c).source_uid =
          endpoint_match nodes threshold (connector_endpoint c.anchor_to c.bbox false) ∧
        (infer_one nodes threshold c).target_uid =
          endpoint_match nodes threshold (connector_endpoint c.anchor_from c.bbox true)) ∧
      (has_arrow c.arrow_head = false → has_arrow c.arrow_tail = false →
        (infer_one nodes threshold c).direction = str "undirected" ∧
        (infer_one nodes threshold c).source_uid =
          endpoint_match nodes threshold (connector_endpoint c.anchor_from c.bbox true) ∧
        (infer_one nodes threshold c).target_uid =
          endpoint_match nodes threshold (connector_endpoint c.anchor_to c.bbox false))) ∧
    has_arrow none = false ∧
    (∀ m : Str, m.map pyLower = str "none" → has_arrow (some m) = false) := by
  refine ⟨?_, rfl, ?_⟩
  · intro nodes threshold c
    refine ⟨?_, ?_, ?_, ?_⟩
    · intro hh ht
      refine ⟨?_, ?_, ?_⟩ <;>
        simp [infer_one, connector_direction, connector_source_point,
          connector_target_point, hh, ht]
    · intro hh ht
      refine ⟨?_, ?_, ?_⟩ <;>
        simp [infer_one, connector_direction, connector_source_point,
          connector_target_point, hh, ht]
    · intro hh ht
      refine ⟨?_, ?_, ?_⟩ <;>
        simp [infer_one, connector_direction, connector_source_point,
          connector_target_point, hh, ht]
    · intro hh ht
      refine ⟨?_, ?_, ?_⟩ <;>
        simp [infer_one, connector_direction, connector_source_point,
          connector_target_point, hh, ht]
  · intro m hm
    simp [has_arrow, hm]

/-- Two rectangular node shapes 100 px apart, used to instantiate the
connector claims. -/
def sampleNodeA : DrawingObject :=
  { object_uid := str "xl/drawings/drawing1.xml:1", object_id := str "1",
    drawing_path := str "xl/drawings/drawing1.xml", kind := str "sp",
    name := str "Box A", text := str "A", anchor_type := str "twoCellAnchor",
    anchor_from := none, anchor_to := none, bbox := (0, 0, 10, 10),
    parent_uid := none, image_target := none, image_content_type := none,
    image_data_uri := none, raw_xml := str "<sp/>", extra := [] }

def sampleNodeB : DrawingObject :=
  { object_uid := str "xl/drawings/drawing1.xml:2", object_id := str "2",
    drawing_path := str "xl/drawings/drawing1.xml", kind := str "sp",
    name := str "Box B", text := str "B", anchor_type := str "twoCellAnchor",
    anchor_from := none, anchor_to := none, bbox := (100, 0, 110, 10),
    parent_uid := none, image_target := none, image_content_type := none,
    image_data_uri := none, raw_xml := str "<sp/>", extra := [] }

/-- A tail-arrow connector between the two sample shapes, endpoints taken
from its bbox corners. -/
def sampleConnector : ConnectorInfo :=
  { object_uid := str "xl/drawings/drawing1.xml:3", object_id := str "3",
    drawing_path := str "xl/drawings/drawing1.xml", name := str "Arrow",
    text := str "", anchor_from := none, anchor_to := none,
    bbox := (5, 5, 105, 5), arrow_head := none,
    arrow_tail := some (str "triangle"), direction := str "undirected",
    source_uid := none, target_uid := none, resolved := false,
    distance_source := none, distance_target := none,
    raw_xml := str "<cxnSp/>" }

/-- Witness for C3 on the tail-only (forward) sample connector. -/
theorem c3_connector_direction_classification_witness :
    has_arrow sampleConnector.arrow_head = false ∧
    has_arrow sampleConnector.arrow_tail = true ∧
    ((infer_one [sampleNodeA, sampleNodeB] 220 sampleConnector).direction = str "forward" ∧
      (infer_one [sampleNodeA, sampleNodeB] 220 sampleConnector).source_uid =
        endpoint_match [sampleNodeA, sampleNodeB] 220
          (connector_endpoint sampleConnector.anchor_from sampleConnector.bbox true) ∧
      (infer_one [sampleNodeA, sampleNodeB] 220 sampleConnector).target_uid =
        endpoint_match [sampleNodeA, sampleNodeB] 220
          (connector_endpoint sampleConnector.anchor_to sampleConnector.bbox false)) :=
  ⟨by decide, by decide,
    ((c3_connector_direction_classification.1 [sampleNodeA, sampleNodeB] 220
      sampleConnector).2.1 (by decide) (by decide))⟩

theorem infer_one_resolved_iff (nodes : List DrawingObject) (th : ℚ)
    (c : ConnectorInfo) (huid : ∀ o ∈ nodes, o.object_uid ≠ []) :
    (infer_one nodes th c).resolved = true ↔
      ∃ s t, endpoint_match nodes th (connector_source_point c) = some s ∧
        endpoint_match nodes th (connector_target_point c) = some t ∧
        s ≠ t ∧ s ∈ nodes.map (fun o => o.object_uid) ∧
        t ∈ nodes.map (fun o => o.object_uid) := by
  constructor
  · intro h
    simp only [infer_one] at h
    cases hs : endpoint_match nodes th (connector_source_point c) with
    | none => rw [hs] at h; cases h
    | some s =>
      cases ht : endpoint_match nodes th (connector_target_point c) with
      | none => rw [hs, ht] at h; cases h
      | some t =>
        rw [hs, ht] at h
        simp only [Bool.and_eq_true, decide_eq_true_eq] at h
        exact ⟨s, t, rfl, rfl, h.1.1.2, h.1.2, h.2⟩
  · rintro ⟨s, t, hs, ht, hst, hsm, htm⟩
    have hsne : s ≠ [] := by
      obtain ⟨o, ho, rfl⟩ := List.mem_map.mp hsm
      exact huid o ho
    have htne : t ≠ [] := by
      obtain ⟨o, ho, rfl⟩ := List.mem_map.mp htm
      exact huid o ho
    simp only [infer_one, hs, ht]
    simp [hsne, htne, hst, hsm, htm]

theorem infer_connectors_foldl (nodes : List DrawingObject) :
    ∀ (cs : List ConnectorInfo) (acc : List ConnectorInfo × List Str),
      cs.foldl
        (fun acc c =>
          let c' := infer_one nodes 220 c
          (acc.1 ++ [c'],
           acc.2 ++ if c'.resolved then [] else [unresolved_warning c'])) acc =
      (acc.1 ++ cs.map (infer_one nodes 220),
       acc.2 ++ (cs.map (infer_one nodes 220)).filterMap
         (fun c' => if c'.resolved then none else some (unresolved_warning c'))) := by
  intro cs
  induction cs with
  | nil =>
    intro acc
    simp
  | cons c t ih =>
    intro acc
    rw [List.foldl_cons, ih]
    simp only [List.map_cons, List.filterMap_cons]
    by_cases hr : (infer_one nodes 220 c).resolved
    · simp [hr, List.append_assoc]
    · simp [hr, List.append_assoc]

theorem unresolved_warning_inj {a b : ConnectorInfo}
    (h : unresolved_warning a = unresolved_warning b) :
    a.object_uid = b.object_uid :=
  List.append_cancel_left h

theorem count_unresolved_warning :
    ∀ (l : List ConnectorInfo),
      ((l.map (fun c => c.object_uid)).Nodup) →
      ∀ c ∈ l, c.resolved = false →
        ((l.filterMap (fun d => if d.resolved then none
            else some (unresolved_warning d))).count (unresolved_warning c)) = 1 := by
  intro l
  induction l with
  | nil =>
    intro _ c hc
    cases hc
  | cons d t ih =>
    intro hnd c hc hr
    rw [List.map_cons, List.nodup_cons] at hnd
    obtain ⟨hdn, hndt⟩ := hnd
    rcases List.mem_cons.mp hc with rfl | hct
    · rw [List.filterMap_cons]
      have hfalse : ¬ c.resolved = true := by simp [hr]
      rw [if_neg hfalse]
      rw [List.count_cons_self]
      have hzero : (t.filterMap (fun d => if d.resolved then none
          else some (unresolved_warning d))).count (unresolved_warning c) = 0 := by
        rw [List.count_eq_zero]
        intro hmem
        obtain ⟨e, he, heq⟩ := List.mem_filterMap.mp hmem
        have heq' : unresolved_warning e = unresolved_warning c := by
          by_cases her : e.resolved = true
          · rw [if_pos her] at heq
            cases heq
          · rw [if_neg her] at heq
            injection heq
        have := unresolved_warning_inj heq'
        exact hdn (this ▸ List.mem_map_of_mem (fun c => c.object_uid) he)
      omega
    · have hcm : c.object_uid ∈ t.map (fun c => c.object_uid) :=
        List.mem_map_of_mem _ hct
      have hdc : d.object_uid ≠ c.object_uid := fun h => hdn (h ▸ hcm)
      rw [List.filterMap_cons]
      by_cases hdr : d.resolved = true
      · rw [if_pos hdr]
        exact ih hndt c hct hr
      · rw [if_neg hdr]
        rw [List.count_cons_of_ne]
        · exact ih hndt c hct hr
        · intro h
          exact hdc (unresolved_warning_inj h.symm)

/-- C2: a connector resolves exactly when both of its endpoints match a
non-connector shape within the 220-px threshold, the matched shapes differ,
and both lie in the node set; the processed connectors come out in order,
and the warning list is extended with exactly one `Unresolved connector`
warning per unresolved connector (exactly one naming each connector when
connector uids are distinct). -/
theorem c2_connector_resolution (objects : List DrawingObject)
    (connectors : List ConnectorInfo) (warnings : List Str)
    (huid : ∀ o ∈ objects, o.object_uid ≠ []) :
    (infer_connectors objects connectors warnings).1 =
      connectors.map (infer_one (objects.filter (fun o => o.kind ≠ str "cxnSp")) 220) ∧
    (∀ c ∈ connectors,
      ((infer_one (objects.filter (fun o => o.kind ≠ str "cxnSp")) 220 c).resolved = true ↔
        ∃ s t,
          endpoint_match (objects.filter (fun o => o.kind ≠ str "cxnSp")) 220
            (connector_source_point c) = some s ∧
          endpoint_match (objects.filter (fun o => o.kind ≠ str "cxnSp")) 220
            (connector_target_point c) = some t ∧
          s ≠ t ∧
          s ∈ (objects.filter (fun o => o.kind ≠ str "cxnSp")).map (fun o => o.object_uid) ∧
          t ∈ (objects.filter (fun o => o.kind ≠ str "cxnSp")).map (fun o => o.object_uid))) ∧
    (infer_connectors objects connectors warnings).2 =
      warnings ++ ((infer_connectors objects connectors warnings).1).filterMap
        (fun c' => if c'.resolved then none else some (unresolved_warning c')) ∧
    ((connectors.map (fun c => c.object_uid)).Nodup →
      ∀ c' ∈ (infer_connectors objects connectors warnings).1, c'.resolved = false →
        (((infer_connectors objects connectors warnings).1).filterMap
          (fun d => if d.resolved then none
            else some (unresolved_warning d))).count (unresolved_warning c') = 1) := by
  have hfold := infer_connectors_foldl (objects.filter (fun o => o.kind ≠ str "cxnSp"))
    connectors ([], warnings)
  have hout : infer_connectors objects connectors warnings =
      (connectors.map (infer_one (objects.filter (fun o => o.kind ≠ str "cxnSp")) 220),
       warnings ++ (connectors.map
         (infer_one (objects.filter (fun o => o.kind ≠ str "cxnSp")) 220)).filterMap
         (fun c' => if c'.resolved then none else some (unresolved_warning c'))) := by
    simp only [infer_connectors, hfold, List.nil_append]
  refine ⟨?_, ?_, ?_, ?_⟩
  · rw [hout]
  · intro c hc
    exact infer_one_resolved_iff _ 220 c
      (fun o ho => huid o (List.mem_of_mem_filter ho))
  · rw [hout]
  · intro hnd c' hc' hr
    rw [hout] at hc' ⊢
    have hnd' : ((connectors.map
        (infer_one (objects.filter (fun o => o.kind ≠ str "cxnSp")) 220)).map
        (fun c => c.object_uid)).Nodup := by
      rw [List.map_map]
      exact hnd
    exact count_unresolved_warning _ hnd' c' hc' hr

/-- Witness for C2: the sample connector resolves between the two sample
boxes, so no warning is appended for it. -/
theorem c2_connector_resolution_witness :
    (∀ o ∈ [sampleNodeA, sampleNodeB], o.object_uid ≠ []) ∧
    (infer_connectors [sampleNodeA, sampleNodeB] [sampleConnector] []).1 =
      [sampleConnector].map
        (infer_one ([sampleNodeA, sampleNodeB].filter (fun o => o.kind ≠ str "cxnSp")) 220) :=
  ⟨by decide,
    (c2_connector_resolution [sampleNodeA, sampleNodeB] [sampleConnector] []
      (by decide)).1⟩

/-- `uid_counter[raw_uid]` lookup on the defaultdict model (0 when the key
is absent, as `defaultdict(int)` yields). -/
def counterGet (counter : List (Str × Nat)) (k : Str) : Nat :=
  match counter.find? (fun kv => kv.1 = k) with
  | some kv => kv.2
  | none => 0

/-- `uid_counter[raw_uid] += 1`, modelled by prepending the new binding
(lookups read the newest binding, which is assignment semantics); returns
the updated counter and the new count. -/
def bumpCounter (counter : List (Str × Nat)) (k : Str) : List (Str × Nat) × Nat :=
  let n := counterGet counter k + 1
  ((k, n) :: counter, n)

/-- The uid built by `_walk_drawing_object` line 112 for a raw uid seen for
the `n`-th time: the raw uid itself the first time, `raw#n` afterwards. -/
def mkUid (raw : Str) (n : Nat) : Str :=
  if n = 1 then raw else raw ++ '#' :: natDigits n

/-- The identity bookkeeping of `_walk_drawing_object` (lines 106-112) over
the sequence of raw author ids encountered in one drawing part, in walk
order: an empty id is replaced by `auto-N` where `N` counts the objects
appended so far plus one, the raw uid is `<drawingPath>:<objectId>`, and the
per-part counter appends `#2`, `#3`, ... on repeats. -/
def assign_uids_aux (path : Str) :
    List Str → Nat → List (Str × Nat) → List Str → List Str
  | [], _, _, acc => acc
  | id₀ :: rest, objCount, counter, acc =>
    let object_id := if id₀ = [] then str "auto-" ++ natDigits (objCount + 1) else id₀
    let raw_uid := path ++ ':' :: object_id
    let t := bumpCounter counter raw_uid
    assign_uids_aux path rest (objCount + 1) t.1 (acc ++ [mkUid raw_uid t.2])

/-- The object uids assigned across one drawing part. -/
def assign_uids (path : Str) (ids : List Str) : List Str :=
  assign_uids_aux path ids 0 [] []

/-- C9 counterexample: within one drawing part the author-id sequence
`"5"`, `"5#2"`, `"5"` produces the uid `...drawing1.xml:5#2` twice — the
second object's raw id collides with the disambiguating suffix of the
third — so the assigned uids are NOT pairwise distinct for adversarial
author ids. -/
theorem c9_uid_uniqueness_counterexample :
    ¬ (assign_uids (str "xl/drawings/drawing1.xml")
        [str "5", str "5#2", str "5"]).Nodup ∧
    assign_uids (str "xl/drawings/drawing1.xml") [str "5", str "5#2", str "5"] =
      [str "xl/drawings/drawing1.xml:5",
       str "xl/drawings/drawing1.xml:5#2",
       str "xl/drawings/drawing1.xml:5#2"] := by
  constructor
  · decide
  · decide

theorem natDigits_no_hash {n : Nat} : '#' ∉ natDigits n := by
  intro h
  have := natDigitsAux_digits n n le_rfl '#' h
  simp [isDigit09] at this

theorem natDigits_no_colon {n : Nat} : ':' ∉ natDigits n := by
  intro h
  have := natDigitsAux_digits n n le_rfl ':' h
  simp [isDigit09] at this

theorem auto_id_no_hash {n : Nat} : '#' ∉ str "auto-" ++ natDigits n := by
  intro h
  rcases List.mem_append.mp h with h | h
  · revert h
    decide
  · exact natDigits_no_hash h

theorem auto_id_no_colon {n : Nat} : ':' ∉ str "auto-" ++ natDigits n := by
  intro h
  rcases List.mem_append.mp h with h | h
  · revert h
    decide
  · exact natDigits_no_colon h

theorem mkUid_eq (raw : Str) (n : Nat) :
    mkUid raw n = raw ++ (if n = 1 then [] else '#' :: natDigits n) := by
  by_cases h : n = 1
  · simp [mkUid, h]
  · simp [mkUid, h]

theorem hash_suffix_split {id₁ id₂ suf₁ suf₂ : Str}
    (h₁ : ∀ c ∈ id₁, (decide (c ≠ '#')) = true)
    (h₂ : ∀ c ∈ id₂, (decide (c ≠ '#')) = true)
    (hs₁ : suf₁ = [] ∨ ∃ d₁, suf₁ = '#' :: d₁)
    (hs₂ : suf₂ = [] ∨ ∃ d₂, suf₂ = '#' :: d₂)
    (h : id₁ ++ suf₁ = id₂ ++ suf₂) : id₁ = id₂ ∧ suf₁ = suf₂ := by
  have hpc : (decide (('#' : Char) ≠ '#')) = false := by decide
  have ht₁ : (id₁ ++ suf₁).takeWhile (fun c => decide (c ≠ '#')) = id₁ := by
    rcases hs₁ with rfl | ⟨d₁, rfl⟩
    · rw [List.append_nil, takeWhile_all h₁]
    · rw [takeWhile_append_of_all _ h₁, takeWhile_nil_of_head hpc, List.append_nil]
  have ht₂ : (id₂ ++ suf₂).takeWhile (fun c => decide (c ≠ '#')) = id₂ := by
    rcases hs₂ with rfl | ⟨d₂, rfl⟩
    · rw [List.append_nil, takeWhile_all h₂]
    · rw [takeWhile_append_of_all _ h₂, takeWhile_nil_of_head hpc, List.append_nil]
  have hid : id₁ = id₂ := by
    rw [← ht₁, ← ht₂, h]
  refine ⟨hid, ?_⟩
  subst hid
  exact List.append_cancel_left h

theorem no_hash_decide {id : Str} (h : '#' ∉ id) :
    ∀ c ∈ id, (decide (c ≠ '#')) = true := by
  intro c hc
  simp only [decide_eq_true_eq]
  intro hch
  subst hch
  exact h hc

theorem mkUid_inj {path id₁ id₂ : Str} {n₁ n₂ : Nat}
    (h₁ : '#' ∉ id₁) (h₂ : '#' ∉ id₂)
    (h : mkUid (path ++ ':' :: id₁) n₁ = mkUid (path ++ ':' :: id₂) n₂) :
    id₁ = id₂ ∧ n₁ = n₂ := by
  rw [mkUid_eq, mkUid_eq, List.append_assoc, List.append_assoc] at h
  have h' := List.append_cancel_left h
  simp only [List.cons_append, List.cons.injEq, true_and] at h'
  have hsplit := hash_suffix_split (no_hash_decide h₁) (no_hash_decide h₂)
    (by by_cases hn : n₁ = 1 <;> simp [hn]) (by by_cases hn : n₂ = 1 <;> simp [hn]) h'
  refine ⟨hsplit.1, ?_⟩
  have hsuf := hsplit.2
  by_cases e₁ : n₁ = 1 <;> by_cases e₂ : n₂ = 1
  · omega
  · rw [if_pos e₁, if_neg e₂] at hsuf
    cases hsuf
  · rw [if_neg e₁, if_pos e₂] at hsuf
    cases hsuf
  · rw [if_neg e₁, if_neg e₂] at hsuf
    have hd : natDigits n₁ = natDigits n₂ := by
      injection hsuf
    have := congrArg parseDigits hd
    rw [parseDigits_roundtrip, parseDigits_roundtrip] at this
    exact this

theorem counterGet_bump (counter : List (Str × Nat)) (k k' : Str) :
    counterGet (bumpCounter counter k).1 k' =
      if k' = k then counterGet counter k + 1 else counterGet counter k' := by
  by_cases h : k' = k
  · subst h
    simp [bumpCounter, counterGet, List.find?]
  · have h' : ¬ k = k' := fun hh => h hh.symm
    simp [bumpCounter, counterGet, List.find?, h', h]

theorem assign_uids_aux_nodup (path : Str) :
    ∀ (ids : List Str) (objCount : Nat) (counter : List (Str × Nat)) (acc : List Str),
      (∀ id ∈ ids, '#' ∉ id) →
      acc.Nodup →
      (∀ uid ∈ acc, ∃ id n, '#' ∉ id ∧ 1 ≤ n ∧
        n ≤ counterGet counter (path ++ ':' :: id) ∧
        uid = mkUid (path ++ ':' :: id) n) →
      (assign_uids_aux path ids objCount counter acc).Nodup := by
  intro ids
  induction ids with
  | nil =>
    intro _ _ acc _ hnd _
    exact hnd
  | cons id₀ rest ih =>
    intro objCount counter acc hids hnd hspec
    have hid₀ : '#' ∉ id₀ := hids id₀ (List.mem_cons_self _ _)
    have heff : '#' ∉ (if id₀ = [] then str "auto-" ++ natDigits (objCount + 1) else id₀) := by
      split
      · exact auto_id_no_hash
      · exact hid₀
    set eid := (if id₀ = [] then str "auto-" ++ natDigits (objCount + 1) else id₀) with heid
    have hstep : assign_uids_aux path (id₀ :: rest) objCount counter acc =
        assign_uids_aux path rest (objCount + 1)
          (bumpCounter counter (path ++ ':' :: eid)).1
          (acc ++ [mkUid (path ++ ':' :: eid)
            (bumpCounter counter (path ++ ':' :: eid)).2]) := rfl
    have hcnt : (bumpCounter counter (path ++ ':' :: eid)).2 =
        counterGet counter (path ++ ':' :: eid) + 1 := rfl
    rw [hstep]
    refine ih (objCount + 1) _ _
      (fun id hid => hids id (List.mem_cons_of_mem _ hid)) ?_ ?_
    · refine List.Nodup.append hnd (List.nodup_singleton _) ?_
      intro u hu hu'
      rw [List.mem_singleton] at hu'
      obtain ⟨id, n, hidh, hn1, hnle, hEq⟩ := hspec u hu
      have hcomb : mkUid (path ++ ':' :: id) n =
          mkUid (path ++ ':' :: eid) (counterGet counter (path ++ ':' :: eid) + 1) := by
        rw [← hEq, hu', hcnt]
      obtain ⟨hide, hneq⟩ := mkUid_inj hidh heff hcomb
      subst hide
      omega
    · intro u hu
      rcases List.mem_append.mp hu with hu | hu
      · obtain ⟨id, n, hidh, hn1, hnle, hEq⟩ := hspec u hu
        refine ⟨id, n, hidh, hn1, ?_, hEq⟩
        rw [counterGet_bump]
        by_cases hk : (path ++ ':' :: id) = (path ++ ':' :: eid)
        · rw [if_pos hk, ← hk]
          omega
        · rw [if_neg hk]
          exact hnle
      · rw [List.mem_singleton] at hu
        subst hu
        refine ⟨eid, counterGet counter (path ++ ':' :: eid) + 1, heff, by omega, ?_, by rw [hcnt]⟩
        rw [counterGet_bump, if_pos rfl]

theorem assign_uids_aux_shape (path : Str) :
    ∀ (ids : List Str) (objCount : Nat) (counter : List (Str × Nat)) (acc : List Str),
      (∀ id ∈ ids, ':' ∉ id) →
      (∀ uid ∈ acc, ∃ rest, ':' ∉ rest ∧ uid = path ++ ':' :: rest) →
      ∀ uid ∈ assign_uids_aux path ids objCount counter acc,
        ∃ rest, ':' ∉ rest ∧ uid = path ++ ':' :: rest := by
  intro ids
  induction ids with
  | nil =>
    intro _ _ acc _ hshape uid hu
    exact hshape uid hu
  | cons id₀ rest ih =>
    intro objCount counter acc hids hshape
    have hid₀ : ':' ∉ id₀ := hids id₀ (List.mem_cons_self _ _)
    have heff : ':' ∉ (if id₀ = [] then str "auto-" ++ natDigits (objCount + 1) else id₀) := by
      split
      · exact auto_id_no_colon
      · exact hid₀
    set eid := (if id₀ = [] then str "auto-" ++ natDigits (objCount + 1) else id₀) with heid
    have hstep : assign_uids_aux path (id₀ :: rest) objCount counter acc =
        assign_uids_aux path rest (objCount + 1)
          (bumpCounter counter (path ++ ':' :: eid)).1
          (acc ++ [mkUid (path ++ ':' :: eid)
            (bumpCounter counter (path ++ ':' :: eid)).2]) := rfl
    rw [hstep]
    refine ih (objCount + 1) _ _
      (fun id hid => hids id (List.mem_cons_of_mem _ hid)) ?_
    intro u hu
    rcases List.mem_append.mp hu with hu | hu
    · exact hshape u hu
    · rw [List.mem_singleton] at hu
      subst hu
      refine ⟨eid ++ (if (bumpCounter counter (path ++ ':' :: eid)).2 = 1 then []
        else '#' :: natDigits (bumpCounter counter (path ++ ':' :: eid)).2), ?_, ?_⟩
      · intro hc
        rcases List.mem_append.mp hc with hc | hc
        · exact heff hc
        · revert hc
          split
          · intro hc
            cases hc
          · intro hc
            rcases List.mem_cons.mp hc with hc | hc
            · cases hc
            · exact natDigits_no_colon hc
      · rw [mkUid_eq, List.append_assoc]
        rfl

theorem colon_split {p₁ p₂ r₁ r₂ : Str} (h₁ : ':' ∉ r₁) (h₂ : ':' ∉ r₂)
    (h : p₁ ++ ':' :: r₁ = p₂ ++ ':' :: r₂) : p₁ = p₂ ∧ r₁ = r₂ := by
  have hrev := congrArg List.reverse h
  simp only [List.reverse_append, List.reverse_cons, List.append_assoc,
    List.singleton_append] at hrev
  have hall₁ : ∀ c ∈ r₁.reverse, (decide (c ≠ ':')) = true := by
    intro c hc
    simp only [decide_eq_true_eq]
    intro hch
    subst hch
    exact h₁ (List.mem_reverse.mp hc)
  have hall₂ : ∀ c ∈ r₂.reverse, (decide (c ≠ ':')) = true := by
    intro c hc
    simp only [decide_eq_true_eq]
    intro hch
    subst hch
    exact h₂ (List.mem_reverse.mp hc)
  have hpc : (decide ((':' : Char) ≠ ':')) = false := by decide
  have ht₁ : (r₁.reverse ++ (':' :: p₁.reverse)).takeWhile (fun c => decide (c ≠ ':')) =
      r₁.reverse := by
    rw [takeWhile_append_of_all _ hall₁, takeWhile_nil_of_head hpc, List.append_nil]
  have ht₂ : (r₂.reverse ++ (':' :: p₂.reverse)).takeWhile (fun c => decide (c ≠ ':')) =
      r₂.reverse := by
    rw [takeWhile_append_of_all _ hall₂, takeWhile_nil_of_head hpc, List.append_nil]
  have hr : r₁ = r₂ := by
    have : r₁.reverse = r₂.reverse := by
      rw [← ht₁, ← ht₂, hrev]
    simpa using congrArg List.reverse this
  refine ⟨?_, hr⟩
  subst hr
  have := List.append_cancel_right h
  exact this

/-- C9 (amended): uids are assigned as `<drawingPath>:<authorId>` with
`#2`, `#3`, ... suffixes on repeated raw ids; they are pairwise distinct
within a drawing part whenever no author id contains `#`, and pairwise
distinct across the whole document when additionally the drawing paths are
pairwise distinct and no author id contains `:` — author ids containing `#`
can collide with the disambiguating suffixes (see the counterexample). -/
theorem c9_uid_uniqueness_amended :
    (∀ path ids, (∀ id ∈ ids, '#' ∉ id) → (assign_uids path ids).Nodup) ∧
    (∀ parts : List (Str × List Str),
      (parts.map (fun pt => pt.1)).Nodup →
      (∀ pt ∈ parts, ∀ id ∈ pt.2, '#' ∉ id ∧ ':' ∉ id) →
      ((parts.map (fun pt => assign_uids pt.1 pt.2)).flatten).Nodup) ∧
    (∀ path id, id ≠ [] → assign_uids path [id] = [path ++ ':' :: id]) ∧
    assign_uids (str "d") [str "7", str "7"] = [str "d:7", str "d:7#2"] := by
  have hpart : ∀ path ids, (∀ id ∈ ids, '#' ∉ id) → (assign_uids path ids).Nodup := by
    intro path ids h
    exact assign_uids_aux_nodup path ids 0 [] [] h List.nodup_nil
      (fun uid hu => absurd hu (List.not_mem_nil uid))
  refine ⟨hpart, ?_, ?_, by decide⟩
  · intro parts
    induction parts with
    | nil =>
      intro _ _
      simp
    | cons pt rest ih =>
      intro hnd hids
      rw [List.map_cons, List.nodup_cons] at hnd
      obtain ⟨hp, hndrest⟩ := hnd
      rw [List.map_cons, List.flatten_cons]
      have hhead : (assign_uids pt.1 pt.2).Nodup :=
        hpart pt.1 pt.2 (fun id hid => (hids pt (List.mem_cons_self _ _) id hid).1)
      have htail := ih hndrest
        (fun q hq id hid => hids q (List.mem_cons_of_mem _ hq) id hid)
      refine List.Nodup.append hhead htail ?_
      intro u hu hu'
      obtain ⟨r₁, hr₁, hue₁⟩ := assign_uids_aux_shape pt.1 pt.2 0 [] []
        (fun id hid => (hids pt (List.mem_cons_self _ _) id hid).2)
        (fun uid hu₀ => absurd hu₀ (List.not_mem_nil uid)) u hu
      obtain ⟨l, hl, hul⟩ := List.mem_flatten.mp hu'
      obtain ⟨q, hq, rfl⟩ := List.mem_map.mp hl
      obtain ⟨r₂, hr₂, hue₂⟩ := assign_uids_aux_shape q.1 q.2 0 [] []
        (fun id hid => (hids q (List.mem_cons_of_mem _ hq) id hid).2)
        (fun uid hu₀ => absurd hu₀ (List.not_mem_nil uid)) u hul
      have hsplit := colon_split hr₁ hr₂ (hue₁.symm.trans hue₂)
      exact hp (hsplit.1 ▸ List.mem_map_of_mem (fun pt => pt.1) hq)
  · intro path id hne
    simp [assign_uids, assign_uids_aux, bumpCounter, counterGet, mkUid, hne, List.find?]

/-- Witness for C9's amended uniqueness, over a part with a repeated id and
an empty (auto-numbered) id. -/
theorem c9_uid_uniqueness_amended_witness :
    (∀ id ∈ [str "5", str "", str "5"], '#' ∉ id) ∧
    (assign_uids (str "xl/drawings/drawing1.xml") [str "5", str "", str "5"]).Nodup :=
  ⟨by decide,
    c9_uid_uniqueness_amended.1 (str "xl/drawings/drawing1.xml")
      [str "5", str "", str "5"] (by decide)⟩
